import Mathlib

/-
Shallow embedding of the HI-VAE implementation in
uncertainty_estimation/models/hi_vae.py and of the novelty-score dispatch in
src/models/novelty_estimator.py.

Conventions of the embedding:
- A tensor of shape (n, m) is a list of n rows, each a list of m rationals.
- A raw input tensor that may contain NaN cells is a list of rows of
  Option rationals, with none standing for NaN.
- The transcendental functions of the numeric library (log, exp, sqrt) and
  the constant log(sqrt(2*pi)) are explicit function parameters
  (qlog, qexp, qsqrt, logSqrt2pi); the program structure the claims are
  about does not depend on their values.
- In-place mutation of a tensor is modelled by returning the mutated value
  explicitly; stateful batch-norm statistics are explicit state passing.
- A Python exception is modelled by Except.error with a descriptive message.
-/

namespace HiVae

abbrev Vec := List ℚ

abbrev Mat := List (List ℚ)

abbrev OptMat := List (List (Option ℚ))

/-- torch.relu -/
def relu (x : ℚ) : ℚ := max 0 x

/-- torch.nn.LeakyReLU with the default negative_slope = 0.01 -/
def leakyRelu (x : ℚ) : ℚ := if x < 0 then x / 100 else x

/-- softplus(x) = log(1 + exp(x)), with abstract log and exp -/
def softplus (qexp qlog : ℚ → ℚ) (x : ℚ) : ℚ := qlog (1 + qexp x)

/-- Sum of a list of rationals (torch.sum over one dimension). -/
def vsum (v : List ℚ) : ℚ := v.foldr (· + ·) 0

/-- Mean of a list of rationals (torch.mean over one dimension). -/
def vmean (v : List ℚ) : ℚ := vsum v / v.length

/-- Python int()/.long() conversion of a float: truncation toward zero. -/
def ratTrunc (q : ℚ) : ℤ := if 0 ≤ q then ⌊q⌋ else ⌈q⌉

/-- Map with the position index, starting from a given index. -/
def idxMapFrom (f : ℕ → α → β) : ℕ → List α → List β
  | _, [] => []
  | k, a :: as => f k a :: idxMapFrom f (k + 1) as

/-- Map with the position index (used to model column-indexed tensor ops). -/
def idxMap (f : ℕ → α → β) (l : List α) : List β := idxMapFrom f 0 l

def zipWith3 (f : α → β → γ → δ) : List α → List β → List γ → List δ
  | a :: as, b :: bs, c :: cs => f a b c :: zipWith3 f as bs cs
  | _, _, _ => []

def zipWith4 (f : α → β → γ → δ → ε) :
    List α → List β → List γ → List δ → List ε
  | a :: as, b :: bs, c :: cs, d :: ds => f a b c d :: zipWith4 f as bs cs ds
  | _, _, _, _ => []

/-- torch.argmax over a row: index of the first maximal value. -/
def argmaxAux : List ℚ → ℕ → ℕ → ℚ → ℕ
  | [], _, bi, _ => bi
  | x :: xs, i, bi, bv =>
    if bv < x then argmaxAux xs (i + 1) i x else argmaxAux xs (i + 1) bi bv

def argmaxIdx : List ℚ → ℕ
  | [] => 0
  | x :: xs => argmaxAux xs 1 0 x

/-- torch.cumsum along a row. -/
def cumsumFrom (acc : ℚ) : List ℚ → List ℚ
  | [] => []
  | x :: xs => (acc + x) :: cumsumFrom (acc + x) xs

def cumsum (v : List ℚ) : List ℚ := cumsumFrom 0 v

/-- torch.roll(shifts=1, dims=1) on a row: the last entry moves to the front. -/
def rollRight (v : List ℚ) : List ℚ :=
  match v with
  | [] => []
  | _ => v.getLast?.getD 0 :: v.dropLast

/-- Entry (i, j) of a matrix, with 0 as the out-of-range default. -/
def mget (A : Mat) (i j : ℕ) : ℚ := (A.getD i []).getD j 0

/-- Column j of a matrix (input_tensor[:, j]). -/
def getCol (A : Mat) (j : ℕ) : Vec := A.map (fun r => r.getD j 0)

/-- softmax of a row: exp(x_i) / sum_j exp(x_j), with abstract exp. -/
def softmaxRow (qexp : ℚ → ℚ) (v : List ℚ) : List ℚ :=
  v.map (fun x => qexp x / vsum (v.map qexp))

/-- log_softmax of a row evaluated at index t: x_t - log(sum_j exp(x_j)). -/
def logSoftmaxAt (qexp qlog : ℚ → ℚ) (v : List ℚ) (t : ℕ) : ℚ :=
  v.getD t 0 - qlog (vsum (v.map qexp))

/-- Monadic map over a list in the Except monad, failing on the first error.
Used to model an elementwise tensor operation that can raise. -/
def listMapE (f : α → Except String β) : List α → Except String (List β)
  | [] => .ok []
  | a :: as =>
    match f a with
    | .error e => .error e
    | .ok b =>
      match listMapE f as with
      | .error e => .error e
      | .ok bs => .ok (b :: bs)

/-- F.cross_entropy with the default reduction="mean": the scalar
mean over the batch of -log_softmax(input_i)[target_i].  A target outside
[0, C) raises, as in torch. -/
def crossEntropyMean (qexp qlog : ℚ → ℚ) (P : Mat) (ts : List ℤ) :
    Except String ℚ :=
  match listMapE
      (fun pt : List ℚ × ℤ =>
        if 0 ≤ pt.2 ∧ pt.2.toNat < pt.1.length then
          Except.ok (-(logSoftmaxAt qexp qlog pt.1 pt.2.toNat))
        else Except.error "IndexError: Target out of bounds")
      (P.zip ts) with
  | .error e => .error e
  | .ok terms => .ok (vmean terms)

/-- nn.Linear: weight is an outF x inF matrix, bias a vector of length outF.
Applying it to a row of the wrong width raises, as in torch. -/
structure Linear where
  inF : ℕ
  outF : ℕ
  w : List (List ℚ)
  b : List ℚ
deriving DecidableEq

def dot (a b : List ℚ) : ℚ := vsum (List.zipWith (· * ·) a b)

def Linear.apply (l : Linear) (x : Vec) : Except String Vec :=
  if x.length = l.inF then
    .ok (List.zipWith (fun wr bi => dot wr x + bi) l.w l.b)
  else .error "RuntimeError: mat1 and mat2 shapes cannot be multiplied"

/-- Internal well-formedness of a Linear (what nn.Linear guarantees by
construction): weight and bias have outF rows. -/
def Linear.WF (l : Linear) : Prop := l.w.length = l.outF ∧ l.b.length = l.outF

/-- One Linear followed by LeakyReLU, as in the encoder/decoder stacks. -/
def applyLinLeaky (l : Linear) (x : Vec) : Except String Vec :=
  match l.apply x with
  | .error e => .error e
  | .ok y => .ok (y.map leakyRelu)

/-- nn.Sequential of (Linear, LeakyReLU) pairs. -/
def applyChain : List Linear → Vec → Except String Vec
  | [], x => .ok x
  | l :: ls, x =>
    match applyLinLeaky l x with
    | .error e => .error e
    | .ok y => applyChain ls y

/-- Dimension contract of a (Linear, LeakyReLU) stack built in __init__ from
an architecture list running from n to m. -/
def chainWF : ℕ → List Linear → ℕ → Prop
  | n, [], m => n = m
  | n, l :: ls, m => l.WF ∧ l.inF = n ∧ chainWF l.outF ls m

/-- A feature-type tuple of FeatTypes.  The source represents it as
(name, min, max) with min/max only read for categorical and ordinal
features; the tagged form carries exactly the fields each branch of the
source reads.  The source asserts the name is one of these five. -/
inductive FeatType where
  | real
  | positive_real
  | count
  | categorical (fmax : ℤ)
  | ordinal (fmin fmax : ℤ)
deriving DecidableEq

/-- Caller contract from the spec: categorical/ordinal bounds describe a
non-negative integer code range. -/
def FeatType.wf : FeatType → Prop
  | .categorical fmax => 0 ≤ fmax
  | .ordinal fmin fmax => 0 ≤ fmin ∧ fmin ≤ fmax
  | _ => True

/-- Membership test feat_type in ("positive_real", "count") of normalize. -/
def FeatType.isLogTransformed : FeatType → Bool
  | .positive_real => true
  | .count => true
  | _ => false

/-- The mask called real_mask in normalize: True for the features NOT in
("real", "positive_real"), whose columns are recovered (un-normalized)
after the batch-norm layer ran. -/
def FeatType.isRecovered : FeatType → Bool
  | .real => false
  | .positive_real => false
  | _ => true

/-- Width of one feature after categorical/thermometer encoding. -/
def FeatType.encWidth : FeatType → ℕ
  | .categorical fmax => (fmax + 1).toNat
  | .ordinal fmin fmax => (fmax - fmin + 1).toNat
  | _ => 1

def sumWidths (fts : List FeatType) : ℕ :=
  (fts.map FeatType.encWidth).foldr (· + ·) 0

/-- The amount one feature adds to input_size in
HIEncoder.get_encoded_input_size: int(feat_max) + 1 for categorical,
int(feat_max - feat_min + 1) for ordinal, and 1 otherwise. -/
def featWidthZ : FeatType → ℤ
  | .categorical fmax => fmax + 1
  | .ordinal fmin fmax => fmax - fmin + 1
  | _ => 1

/-- HIEncoder.get_encoded_input_size: input_size starts at 0 and accumulates
featWidthZ over the features in order. -/
def HIEncoder.get_encoded_input_size (fts : List FeatType) : ℤ :=
  fts.foldl (fun acc ft => acc + featWidthZ ft) 0

/-- The spec's caller contract for one cell: a categorical value must be a
(truncated) integer inside [0, max]; other feature types are unconstrained
for encoding purposes. -/
def FeatType.inRange : FeatType → ℚ → Prop
  | .categorical fmax, x => 0 ≤ ratTrunc x ∧ ratTrunc x < fmax + 1
  | _, _ => True

/-- Encoding of one cell of one feature in HIEncoder.categorical_encode:
one-hot of the .long() value with num_classes = int(feat_max) + 1 for
categorical (F.one_hot raises when the value is outside [0, num_classes)),
thermometer (cumulative indicator, arange(0, num_values) <= x) of width
int(feat_max - feat_min + 1) for ordinal, and the untouched scalar
otherwise. -/
def encodeCell (ft : FeatType) (x : ℚ) : Except String (List ℚ) :=
  match ft with
  | .categorical fmax =>
    let numOptions : ℕ := (fmax + 1).toNat
    let v : ℤ := ratTrunc x
    if 0 ≤ v ∧ v < (numOptions : ℤ) then
      .ok ((List.range numOptions).map fun (i : ℕ) =>
        if (i : ℤ) = v then (1 : ℚ) else 0)
    else .error "RuntimeError: Class values must be smaller than num_classes"
  | .ordinal fmin fmax =>
    let numValues : ℕ := (fmax - fmin + 1).toNat
    .ok ((List.range numValues).map fun (i : ℕ) =>
      if (i : ℚ) ≤ x then (1 : ℚ) else 0)
  | _ => .ok [x]

/-- HIEncoder.categorical_encode restricted to one row: the source iterates
over the features (columns) of the whole batch and concatenates the
per-feature encodings along dim 1; per row this is the concatenation of the
per-cell encodings in feature order. -/
def HIEncoder.categorical_encode_row (fts : List FeatType) (row : Vec) :
    Except String Vec :=
  match listMapE (fun p : FeatType × ℚ => encodeCell p.1 p.2) (fts.zip row) with
  | .error e => .error e
  | .ok cells => .ok cells.flatten

/-- HIEncoder.categorical_encode on the whole batch. -/
def HIEncoder.categorical_encode (fts : List FeatType) (X : Mat) :
    Except String Mat :=
  listMapE (HIEncoder.categorical_encode_row fts) X

/-- State of the torch.nn.BatchNorm1d layer (affine=False): running mean and
variance per input feature and the batch counter. -/
structure BNState where
  running_mean : Vec
  running_var : Vec
  num_batches_tracked : ℕ
deriving DecidableEq

/-- Per-column mean of a batch. -/
def colMean (X : Mat) (j : ℕ) : ℚ := vmean (getCol X j)

/-- Per-column biased variance (used by batch norm to normalize a training
batch). -/
def colVarBiased (X : Mat) (j : ℕ) : ℚ :=
  vmean ((getCol X j).map fun x => (x - colMean X j) ^ 2)

/-- Per-column unbiased variance (used by batch norm to update running_var). -/
def colVarUnbiased (X : Mat) (j : ℕ) : ℚ :=
  vsum ((getCol X j).map fun x => (x - colMean X j) ^ 2) / ((X.length : ℚ) - 1)

/-- HIEncoder.batch_norm_reset_hook: registered as a forward PRE-hook on the
batch-norm layer, so it runs before every forward pass of that layer.  It
zeroes num_batches_tracked and the running mean and sets running_var to
ones. -/
def HIEncoder.batch_norm_reset_hook (s : BNState) : BNState :=
  ⟨s.running_mean.map fun _ => 0, s.running_var.map fun _ => 1, 0⟩

/-- Running-statistics update of BatchNorm1d in training mode, with the
default momentum 0.1: new = 0.9 * old + 0.1 * batch statistic (unbiased
variance for running_var), and num_batches_tracked increments. -/
def bnUpdate (s : BNState) (X : Mat) : BNState :=
  ⟨idxMap (fun j m => (9 / 10) * m + (1 / 10) * colMean X j) s.running_mean,
   idxMap (fun j v => (9 / 10) * v + (1 / 10) * colVarUnbiased X j) s.running_var,
   s.num_batches_tracked + 1⟩

/-- One training-mode forward pass of the encoder's batch-norm layer as far
as its state is concerned: the registered pre-hook resets the statistics,
then the train-mode update runs on the batch. -/
def bnStepTrain (s : BNState) (X : Mat) : BNState :=
  bnUpdate (HIEncoder.batch_norm_reset_hook s) X

/-- Output of BatchNorm1d (affine=False) on a training batch: each column is
normalized by the batch mean and biased batch variance, with the default
eps = 1e-5. -/
def bnOutputTrain (qsqrt : ℚ → ℚ) (X : Mat) : Mat :=
  X.map fun r =>
    idxMap (fun j x => (x - colMean X j) / qsqrt (colVarBiased X j + 1 / 100000)) r

/-- ObservedMask: true where the raw cell was present (not NaN). -/
def observed_mask (X : OptMat) : List (List Bool) := X.map (·.map Option.isSome)

/-- input_tensor[~observed_mask] = 0: missing cells replaced by 0. -/
def zeroFill (X : OptMat) : Mat := X.map (·.map fun c => c.getD 0)

/-- The in-place log transform of normalize on one row: cells of
positive_real and count columns become log(relu(x) + 1e-8). -/
def applyLogRow (qlog : ℚ → ℚ) (fts : List FeatType) (row : Vec) : Vec :=
  List.zipWith
    (fun ft x =>
      if ft.isLogTransformed then qlog (relu x + 1 / 100000000) else x)
    fts row

/-- Content of the caller's tensor after HIEncoder.normalize returns: the
NaN cells were zero-filled in place and the positive_real/count columns were
log-transformed in place.  (The batch-norm output is written to a fresh
tensor and does not reach the caller's tensor.) -/
def normalizeInPlace (qlog : ℚ → ℚ) (fts : List FeatType) (X : OptMat) : Mat :=
  (zeroFill X).map (applyLogRow qlog fts)

/-- Lift a NaN-free tensor back to the raw-input representation (a tensor
whose isnan mask is all-false). -/
def toOptMat (A : Mat) : OptMat := A.map (·.map some)

/-- HIEncoder.normalize.  Returns (new batch-norm state, returned
normed_input, content of the caller tensor after the in-place mutations,
observed mask).  Steps of the source: record the mask; zero-fill missing
cells in place; log-transform positive_real/count columns in place; run the
batch-norm layer (pre-hook reset + train-mode statistics update) on the
whole tensor; overwrite the columns of real_mask (every feature not in
("real", "positive_real")) of the batch-norm output with the un-normalized
values. -/
def HIEncoder.normalize (qlog qsqrt : ℚ → ℚ) (fts : List FeatType)
    (s : BNState) (X : OptMat) : BNState × Mat × Mat × List (List Bool) :=
  let mask := observed_mask X
  let X1 := (zeroFill X).map (applyLogRow qlog fts)
  let s1 := bnStepTrain s X1
  let N := bnOutputTrain qsqrt X1
  let ret :=
    List.zipWith
      (fun nr xr => zipWith3 (fun ft nv xv => if ft.isRecovered then xv else nv) fts nr xr)
      N X1
  (s1, ret, X1, mask)

/-- log-density of Normal(mean, std) at x, as torch.distributions computes
it: -(x - mean)^2 / (2 std^2) - log std - log(sqrt(2 pi)); the last constant
is the abstract parameter logSqrt2pi. -/
def normalLogPdf (qlog : ℚ → ℚ) (logSqrt2pi : ℚ) (x μ σ : ℚ) : ℚ :=
  -((x - μ) ^ 2 / (2 * σ ^ 2)) - qlog σ - logSqrt2pi

structure NormalDecoder where
  mean : Linear
  var : Linear
deriving DecidableEq

/-- NormalDecoder.reconstruction_error (inherited unchanged by
LogNormalDecoder).  mean(hidden) and sqrt(softplus(var(hidden))) are (n, 1)
tensors de-normalized with the encoder batch-norm layer's running statistics
for this column; input_tensor is the (n,) feature column, also
de-normalized.  Independent(Normal(mean, std), 1).log_prob(input) broadcasts
the (n,) value against the (n, 1) batch shape to (n, n) and sums the last
dimension, so entry i is -sum_j log_pdf(x_j; mean_i, std_i). -/
def NormalDecoder.reconstruction_error (qexp qlog qsqrt : ℚ → ℚ)
    (logSqrt2pi : ℚ) (d : NormalDecoder) (bn : BNState) (x : Vec) (h : Mat)
    (dim : ℕ) : Except String Vec :=
  let running_std := qsqrt (bn.running_var.getD dim 0)
  let running_mean := bn.running_mean.getD dim 0
  match listMapE d.mean.apply h with
  | .error e => .error e
  | .ok meanRows =>
    match listMapE d.var.apply h with
    | .error e => .error e
    | .ok varRows =>
      let means := meanRows.map fun r => r.getD 0 0 * running_std + running_mean
      let stds := varRows.map fun r => qsqrt (softplus qexp qlog (r.getD 0 0)) * running_std
      let xDenorm := x.map fun v => v * running_std + running_mean
      .ok ((List.zip means stds).map fun ms =>
        -vsum (xDenorm.map fun xv => normalLogPdf qlog logSqrt2pi xv ms.1 ms.2))

structure PoissonDecoder where
  lambda_ : Linear
deriving DecidableEq

/-- PoissonDecoder.reconstruction_error: the rate is
softplus(lambda_(hidden)).int() (truncated), and
F.poisson_nll_loss(input_tensor, lambda_) is called with the data as the
first argument, so with the defaults log_input=True and reduction="mean" it
returns the scalar mean over the batch of exp(x_i) - lambda_i * x_i. -/
def PoissonDecoder.reconstruction_error (qexp qlog : ℚ → ℚ)
    (d : PoissonDecoder) (x : Vec) (h : Mat) : Except String ℚ :=
  match listMapE d.lambda_.apply h with
  | .error e => .error e
  | .ok lamRows =>
    let lam := lamRows.map fun r => ratTrunc (softplus qexp qlog (r.getD 0 0))
    .ok (vmean (List.zipWith (fun (xv : ℚ) (l : ℤ) => qexp xv - (l : ℚ) * xv) x lam))

structure CategoricalDecoder where
  linear : Linear
deriving DecidableEq

/-- CategoricalDecoder.reconstruction_error: softmax is applied to the
logits, F.cross_entropy (which itself applies log_softmax and averages over
the batch with the default reduction="mean") is applied to the softmaxed
values against the .long() targets, and the result is negated.  The return
value is a single scalar for the whole batch. -/
def CategoricalDecoder.reconstruction_error (qexp qlog : ℚ → ℚ)
    (d : CategoricalDecoder) (x : Vec) (h : Mat) : Except String ℚ :=
  match listMapE d.linear.apply h with
  | .error e => .error e
  | .ok dists =>
    match crossEntropyMean qexp qlog (dists.map (softmaxRow qexp)) (x.map ratTrunc) with
    | .error e => .error e
    | .ok ce => .ok (-ce)

structure OrdinalDecoder where
  fmin : ℤ
  fmax : ℤ
  thresholds : Linear
  region : Linear
deriving DecidableEq

/-- OrdinalDecoder.get_ordinal_probs: softplus region score, cumulative-sum
softplus thresholds, logistic link p(x<=r) = 1/(1+exp(-(threshold - region))),
first-difference with the rolled row whose first entry is clipped to 0, and
a final softmax over the differences. -/
def OrdinalDecoder.get_ordinal_probs (qexp qlog : ℚ → ℚ) (d : OrdinalDecoder)
    (h : Mat) : Except String Mat :=
  match listMapE d.region.apply h with
  | .error e => .error e
  | .ok regions =>
    match listMapE d.thresholds.apply h with
    | .error e => .error e
    | .ok ths =>
      .ok ((List.zip regions ths).map fun rt =>
        let r := softplus qexp qlog (rt.1.getD 0 0)
        let th := cumsum (rt.2.map (softplus qexp qlog))
        let tp := th.map fun t => 1 / (1 + qexp (-(t - r)))
        let cmp := (rollRight tp).set 0 0
        softmaxRow qexp (List.zipWith (· - ·) tp cmp))

/-- OrdinalDecoder.reconstruction_error: when the feature minimum is
positive, zero labels (imputed missing values) are remapped to the minimum
and all labels are shifted down by the minimum; then -F.cross_entropy of the
ordinal probabilities (mean reduction, so a single scalar for the batch). -/
def OrdinalDecoder.reconstruction_error (qexp qlog : ℚ → ℚ)
    (d : OrdinalDecoder) (x : Vec) (h : Mat) : Except String ℚ :=
  let x1 :=
    if 0 < d.fmin then
      (x.map fun v => if v = 0 then (d.fmin : ℚ) else v).map fun v => v - (d.fmin : ℚ)
    else x
  match d.get_ordinal_probs qexp qlog h with
  | .error e => .error e
  | .ok probs =>
    match crossEntropyMean qexp qlog probs (x1.map ratTrunc) with
    | .error e => .error e
    | .ok ce => .ok (-ce)

/-- The polymorphic decoder family selected from the feature type in
HIDecoder.__init__ (real -> NormalDecoder, positive_real -> LogNormalDecoder,
count -> PoissonDecoder, categorical -> CategoricalDecoder,
ordinal -> OrdinalDecoder).  LogNormalDecoder overrides only forward and
inherits NormalDecoder.reconstruction_error. -/
inductive VarDecoder where
  | normal (d : NormalDecoder)
  | lognormal (d : NormalDecoder)
  | poisson (d : PoissonDecoder)
  | categorical (d : CategoricalDecoder)
  | ordinal (d : OrdinalDecoder)
deriving DecidableEq

/-- The column that the assignment
reconstruction_loss[:, feat_num] = decoding_model.reconstruction_error(...)
stores: the Normal/LogNormal decoders return an (n,) tensor, while the
Poisson, Categorical and Ordinal decoders return a scalar (mean reduction)
that broadcasts to the whole column. -/
def VarDecoder.reconColumn (qexp qlog qsqrt : ℚ → ℚ) (logSqrt2pi : ℚ)
    (vd : VarDecoder) (bn : BNState) (x : Vec) (h : Mat) (dim : ℕ) :
    Except String Vec :=
  match vd with
  | .normal d => d.reconstruction_error qexp qlog qsqrt logSqrt2pi bn x h dim
  | .lognormal d => d.reconstruction_error qexp qlog qsqrt logSqrt2pi bn x h dim
  | .poisson d =>
    match d.reconstruction_error qexp qlog x h with
    | .error e => .error e
    | .ok s => .ok (List.replicate x.length s)
  | .categorical d =>
    match d.reconstruction_error qexp qlog x h with
    | .error e => .error e
    | .ok s => .ok (List.replicate x.length s)
  | .ordinal d =>
    match d.reconstruction_error qexp qlog x h with
    | .error e => .error e
    | .ok s => .ok (List.replicate x.length s)

structure HIDecoder where
  feat_types : List FeatType
  n_mix_components : ℕ
  hidden : List Linear
  decoding_models : List VarDecoder
deriving DecidableEq

/-- HIDecoder.reconstruction_error: h is the hidden stack applied to the
latent sample, concatenated with the mixture one-hot; a loss matrix of the
input's shape is filled column-by-column with each decoder's
reconstruction_error on its feature column; entries where the observed mask
is false are zeroed; the result is the row (per-sample) sum. -/
def HIDecoder.reconstruction_error (qexp qlog qsqrt : ℚ → ℚ)
    (logSqrt2pi : ℚ) (D : HIDecoder) (bn : BNState) (X : Mat) (latent : Mat)
    (mix : Mat) (mask : List (List Bool)) : Except String Vec :=
  match listMapE (applyChain D.hidden) latent with
  | .error e => .error e
  | .ok h0 =>
    let h := List.zipWith (· ++ ·) h0 mix
    match
      listMapE
        (fun dv : ℕ × VarDecoder =>
          dv.2.reconColumn qexp qlog qsqrt logSqrt2pi bn (getCol X dv.1) h dv.1)
        (idxMap (fun i v => (i, v)) D.decoding_models) with
    | .error e => .error e
    | .ok cols =>
      .ok ((List.range X.length).map fun i =>
        vsum (idxMap
          (fun j c => if (mask.getD i []).getD j false then c.getD i 0 else 0)
          cols))

structure HIEncoder where
  feat_types : List FeatType
  n_mix_components : ℕ
  mixture_model : Linear
  hidden : List Linear
  mean : Linear
  var : Linear
  p_mean : Linear
  p_var : Linear
deriving DecidableEq

/-- Dimension contract established by HIEncoder.__init__ for hidden-layer
output size lastHidden = ([encoded_input_size] + hidden_sizes)[-1] and a
latent dimension latent_dim. -/
structure HIEncoderWF (E : HIEncoder) (lastHidden latent_dim : ℕ) : Prop where
  mix_wf : E.mixture_model.WF
  mix_in : E.mixture_model.inF = sumWidths E.feat_types
  mix_out : E.mixture_model.outF = E.n_mix_components
  hid : chainWF (sumWidths E.feat_types) E.hidden lastHidden
  mean_wf : E.mean.WF
  mean_in : E.mean.inF = lastHidden + E.n_mix_components
  mean_out : E.mean.outF = latent_dim
  var_wf : E.var.WF
  var_in : E.var.inF = lastHidden + E.n_mix_components
  var_out : E.var.outF = latent_dim
  pmean_in : E.p_mean.inF = E.n_mix_components
  pvar_in : E.p_var.inF = E.n_mix_components

/-- F.gumbel_softmax(pi, dim=1) with the default tau=1 and hard=False:
softmax of (logits + gumbel noise); the noise is modelled as an explicit
function of (row, column). -/
def gumbelSoftmax (qexp : ℚ → ℚ) (g : ℕ → ℕ → ℚ) (pi : Mat) : Mat :=
  idxMap (fun i row => softmaxRow qexp (idxMap (fun j x => x + g i j) row)) pi

/-- F.one_hot WITHOUT a num_classes argument, as called on the argmax
indices in HIEncoder.forward and HIVAEModule.forward: the width is the
largest index present plus one, not the configured mixture-component
count. -/
def oneHotRows (idcs : List ℕ) : Mat :=
  let width := idcs.foldr Nat.max 0 + 1
  idcs.map fun v => (List.range width).map fun i => if i = v then 1 else 0

/-- HIEncoder.sample_mix_components together with the encoding prefix of
HIEncoder.forward: the normalized input is categorically encoded and the
mixture logits go through gumbel_softmax.  Shared by HIEncoder.forward. -/
def HIEncoder.encDists (qexp qlog qsqrt : ℚ → ℚ) (E : HIEncoder)
    (s : BNState) (g : ℕ → ℕ → ℚ) (X : OptMat) : Except String Mat :=
  match HIEncoder.categorical_encode E.feat_types
      (HIEncoder.normalize qlog qsqrt E.feat_types s X).2.1 with
  | .error e => .error e
  | .ok Xe =>
    match listMapE E.mixture_model.apply Xe with
    | .error e => .error e
    | .ok pi => .ok (gumbelSoftmax qexp g pi)

/-- HIEncoder.forward.  Returns the batch-norm state after the pass and
either (mean, std, mix_component_dists, observed_mask) or the raised
exception.  The hard mixture one-hot F.one_hot(argmax(dists)) (without
num_classes) is concatenated to the hidden output before the mean/var
heads; std = sqrt(softplus(var(h))). -/
def HIEncoder.forward (qexp qlog qsqrt : ℚ → ℚ) (E : HIEncoder) (s : BNState)
    (g : ℕ → ℕ → ℚ) (X : OptMat) :
    BNState × Except String (Mat × Mat × Mat × List (List Bool)) :=
  let nrm := HIEncoder.normalize qlog qsqrt E.feat_types s X
  (nrm.1,
    match HIEncoder.categorical_encode E.feat_types nrm.2.1 with
    | .error e => .error e
    | .ok Xe =>
      match listMapE E.mixture_model.apply Xe with
      | .error e => .error e
      | .ok pi =>
        let dists := gumbelSoftmax qexp g pi
        let mixOH := oneHotRows (dists.map argmaxIdx)
        match listMapE (applyChain E.hidden) Xe with
        | .error e => .error e
        | .ok h0 =>
          let h := List.zipWith (· ++ ·) h0 mixOH
          match listMapE E.mean.apply h with
          | .error e => .error e
          | .ok means =>
            match listMapE E.var.apply h with
            | .error e => .error e
            | .ok vars =>
              let stds := vars.map (·.map fun v => qsqrt (softplus qexp qlog v))
              .ok (means, stds, dists, nrm.2.2.2))

/-- The latent KL term of HIVAEModule.forward for one sample (one row of
mean/std/p_mean/p_var), exactly as written at lines 643-654:
0.5 * latent_dim + 0.5 * sum(exp(log_var - log_p_var)
+ (p_mean - mean)^2 / p_var - log_var + log_p_var) with
log_var = log(std^2) and log_p_var = log(p_var). -/
def klLatentRow (qexp qlog : ℚ → ℚ) (latent_dim : ℕ)
    (mean std pmean pvar : Vec) : ℚ :=
  (1 / 2) * (latent_dim : ℚ) +
    (1 / 2) *
      vsum (zipWith4
        (fun μ σ pm pv =>
          qexp (qlog (σ ^ 2) - qlog pv) + (pm - μ) ^ 2 / pv - qlog (σ ^ 2) +
            qlog pv)
        mean std pmean pvar)

/-- Modelled from the spec (for comparison with klLatentRow): the classic
closed-form KL divergence between the diagonal Gaussian N(mean, std^2) and
the standard normal, per sample:
0.5 * sum_i (std_i^2 + mean_i^2 - 1 - log(std_i^2)). -/
def classicGaussianKL (qlog : ℚ → ℚ) (mean std : Vec) : ℚ :=
  (1 / 2) *
    vsum (List.zipWith (fun μ σ => σ ^ 2 + μ ^ 2 - 1 - qlog (σ ^ 2)) mean std)

/-- Modelled from the spec (for comparison with
CategoricalDecoder.reconstruction_error): the per-sample negative
log-likelihood of the true class under the decoder's categorical
distribution softmax(linear(h)), one value per sample. -/
def perSampleCatNLL (qexp qlog : ℚ → ℚ) (d : CategoricalDecoder) (x : Vec)
    (h : Mat) : Except String Vec :=
  match listMapE d.linear.apply h with
  | .error e => .error e
  | .ok dists =>
    .ok (List.zipWith
      (fun row xv =>
        -qlog ((softmaxRow qexp row).getD (ratTrunc xv).toNat 0))
      dists x)

structure HIVAEModule where
  latent_dim : ℕ
  n_mix_components : ℕ
  encoder : HIEncoder
  decoder : HIDecoder

/-- HIVAEModule.forward.  Returns (batch-norm state after the pass, content
of the caller's input tensor after the pass, and either
(reconstr_error, kl, average_negative_elbo) or the raised exception).
After encoding, the latent sample is mean + eps * std; the mixture one-hot
is recomputed from the dists; then self.encoder.normalize is invoked a
SECOND time on the tensor that the first normalize already mutated in
place, and the returned (re-normalized) tensor is what reconstruction_error
receives.  kl is the closed-form expression klLatentRow per row with
p_mean = p_mean(mix) and p_var = softplus(p_var(mix)), and kl_s is
F.cross_entropy(dists, argmax(dists)) + log(n_mix_components). -/
def HIVAEModule.forward (qexp qlog qsqrt : ℚ → ℚ) (logSqrt2pi : ℚ)
    (M : HIVAEModule) (s : BNState) (g eps : ℕ → ℕ → ℚ) (X : OptMat)
    (reconstr_error_weight : ℚ) :
    BNState × Mat × Except String (Vec × Vec × ℚ) :=
  let fts := M.encoder.feat_types
  let enc := M.encoder.forward qexp qlog qsqrt s g X
  let X1 := normalizeInPlace qlog fts X
  match enc.2 with
  | .error e => (enc.1, X1, .error e)
  | .ok out =>
    let mean := out.1
    let std := out.2.1
    let dists := out.2.2.1
    let mask := out.2.2.2
    let latent :=
      idxMap
        (fun i ms => idxMap (fun j mv => mv + eps i j * (ms.2.getD j 0)) ms.1)
        (List.zip mean std)
    let mixOH := oneHotRows (dists.map argmaxIdx)
    let nrm2 := HIEncoder.normalize qlog qsqrt fts enc.1 (toOptMat X1)
    let rest : Except String (Vec × Vec × ℚ) :=
      match
        M.decoder.reconstruction_error qexp qlog qsqrt logSqrt2pi nrm2.1
          nrm2.2.1 latent mixOH mask with
      | .error e => .error e
      | .ok reconstr_error =>
        match listMapE M.encoder.p_mean.apply mixOH with
        | .error e => .error e
        | .ok pmeans =>
          match listMapE M.encoder.p_var.apply mixOH with
          | .error e => .error e
          | .ok pvarsRaw =>
            let pvars := pvarsRaw.map (·.map (softplus qexp qlog))
            let kl :=
              zipWith4 (klLatentRow qexp qlog M.latent_dim) mean std pmeans
                pvars
            match
              crossEntropyMean qexp qlog dists
                ((dists.map argmaxIdx).map Int.ofNat) with
            | .error e => .error e
            | .ok ce =>
              let kl_s := ce + qlog (M.n_mix_components : ℚ)
              let elbo :=
                vmean (List.zipWith
                  (fun r k => reconstr_error_weight * r + k + kl_s)
                  reconstr_error kl)
              .ok (reconstr_error, kl, elbo)
    (nrm2.1, nrm2.2.2.1, rest)

/-- Python tuple unpacking a, b, c = t: succeeds only when the tuple has
exactly three components.  HIVAEModule.reconstruct applies it to the
encoder's return value, which is a 4-tuple. -/
def unpack3 (l : List Mat) : Except String (Mat × Mat × Mat) :=
  match l with
  | [a, b, c] => .ok (a, b, c)
  | _ => .error "ValueError: too many values to unpack (expected 3)"

def maskToMat (mask : List (List Bool)) : Mat :=
  mask.map (·.map fun b => if b then (1 : ℚ) else 0)

/-- HIVAEModule.reconstruct.  The line
mean, std, observed_mask = self.encoder(input_tensor) unpacks the encoder's
4-tuple (mean, std, mix_component_dists, observed_mask) into three names,
and the later line self.decoder(latent_tensor, reconstruction_mode) passes
the mode string where HIDecoder.forward expects the mixture one-hot tensor.
Returns (batch-norm state, caller-tensor content, and the raised exception
or - never - a reconstruction). -/
def HIVAEModule.reconstruct (qexp qlog qsqrt : ℚ → ℚ) (M : HIVAEModule)
    (s : BNState) (g : ℕ → ℕ → ℚ) (X : OptMat) :
    BNState × Mat × Except String (Mat × Mat × Mat) :=
  let fts := M.encoder.feat_types
  let enc := M.encoder.forward qexp qlog qsqrt s g X
  let X1 := normalizeInPlace qlog fts X
  (enc.1, X1,
    match enc.2 with
    | .error e => .error e
    | .ok out =>
      match unpack3 [out.1, out.2.1, out.2.2.1, maskToMat out.2.2.2] with
      | .error e => .error e
      | .ok _ =>
        .error "TypeError: expected Tensor as element 1 in argument 0, but got str")

/-- HIVAE.reconstruct delegates to HIVAEModule.reconstruct. -/
def HIVAE.reconstruct (qexp qlog qsqrt : ℚ → ℚ) (M : HIVAEModule)
    (s : BNState) (g : ℕ → ℕ → ℚ) (X : OptMat) :
    BNState × Mat × Except String (Mat × Mat × Mat) :=
  HIVAEModule.reconstruct qexp qlog qsqrt M s g X

end HiVae

namespace NoveltyEstimation

/- Embedding of src/models/novelty_estimator.py.  A data matrix is a list
of rows of rationals and a score array a list of rationals.  A trained
model is a record of the methods the scoring lambdas call. -/

abbrev Data := List (List ℚ)

abbrev Score := List ℚ

structure Model where
  score_samples : Data → Score
  get_reconstr_error : Data → Score
  get_latent_prob : Data → Score
  get_latent_prior_prob : Data → Score
  get_reconstruction_grad_magnitude : Data → Score
  predict_proba : Data → List (List ℚ)
  get_std : Data → Score
  get_mutual_information : Data → Score

/-- The SCORING_FUNCS dispatch table, entry for entry.  entropy and
max_prob come from src.utils.metrics, which is not under src/; they are
abstract per-sample reductions of predict_proba's output (axis=1), passed
as parameters. -/
def SCORING_FUNCS (entropy max_prob : List (List ℚ) → Score) :
    List ((String × String) × (Model → Data → Score)) :=
  [(("PPCA", "log_prob"), fun model data => (model.score_samples data).map Neg.neg),
   (("AE", "reconstr_err"), fun model data => model.get_reconstr_error data),
   (("HI-VAE", "reconstr_err"), fun model data => model.get_reconstr_error data),
   (("HI-VAE", "latent_prob"), fun model data => (model.get_latent_prob data).map Neg.neg),
   (("HI-VAE", "latent_prior_prob"), fun model data => (model.get_latent_prior_prob data).map Neg.neg),
   (("HI-VAE", "reconstr_err_grad"), fun model data => model.get_reconstruction_grad_magnitude data),
   (("VAE", "reconstr_err"), fun model data => model.get_reconstr_error data),
   (("VAE", "latent_prob"), fun model data => (model.get_latent_prob data).map Neg.neg),
   (("VAE", "latent_prior_prob"), fun model data => (model.get_latent_prior_prob data).map Neg.neg),
   (("VAE", "reconstr_err_grad"), fun model data => model.get_reconstruction_grad_magnitude data),
   (("LogReg", "entropy"), fun model data => entropy (model.predict_proba data)),
   (("LogReg", "max_prob"), fun model data => max_prob (model.predict_proba data)),
   (("NN", "entropy"), fun model data => entropy (model.predict_proba data)),
   (("NN", "max_prob"), fun model data => max_prob (model.predict_proba data)),
   (("PlattScalingNN", "entropy"), fun model data => entropy (model.predict_proba data)),
   (("PlattScalingNN", "max_prob"), fun model data => max_prob (model.predict_proba data)),
   (("MCDropout", "entropy"), fun model data => entropy (model.predict_proba data)),
   (("MCDropout", "std"), fun model data => model.get_std data),
   (("MCDropout", "mutual_information"), fun model data => model.get_mutual_information data),
   (("BBB", "entropy"), fun model data => entropy (model.predict_proba data)),
   (("BBB", "std"), fun model data => model.get_std data),
   (("BBB", "mutual_information"), fun model data => model.get_mutual_information data),
   (("NNEnsemble", "entropy"), fun model data => entropy (model.predict_proba data)),
   (("NNEnsemble", "std"), fun model data => model.get_std data),
   (("NNEnsemble", "mutual_information"), fun model data => model.get_mutual_information data),
   (("BootstrappedNNEnsemble", "entropy"), fun model data => entropy (model.predict_proba data)),
   (("BootstrappedNNEnsemble", "std"), fun model data => model.get_std data),
   (("BootstrappedNNEnsemble", "mutual_information"), fun model data => model.get_mutual_information data),
   (("AnchoredNNEnsemble", "entropy"), fun model data => entropy (model.predict_proba data)),
   (("AnchoredNNEnsemble", "std"), fun model data => model.get_std data),
   (("AnchoredNNEnsemble", "mutual_information"), fun model data => model.get_mutual_information data)]

/-- Modelled from the spec: AVAILABLE_MODELS is imported from
src/models/info.py, which is not under src/.  The spec says only that an
unrecognized model name fails; it is modelled as the set of model names
that appear as first components of the registered SCORING_FUNCS keys. -/
def AVAILABLE_MODELS : List String :=
  ["PPCA", "AE", "HI-VAE", "VAE", "LogReg", "NN", "PlattScalingNN",
   "MCDropout", "BBB", "NNEnsemble", "BootstrappedNNEnsemble",
   "AnchoredNNEnsemble"]

/-- The keys of SCORING_FUNCS (used to relate the dispatch table to
AVAILABLE_MODELS). -/
def SCORING_KEYS : List (String × String) :=
  [("PPCA", "log_prob"), ("AE", "reconstr_err"), ("HI-VAE", "reconstr_err"),
   ("HI-VAE", "latent_prob"), ("HI-VAE", "latent_prior_prob"),
   ("HI-VAE", "reconstr_err_grad"), ("VAE", "reconstr_err"),
   ("VAE", "latent_prob"), ("VAE", "latent_prior_prob"),
   ("VAE", "reconstr_err_grad"), ("LogReg", "entropy"), ("LogReg", "max_prob"),
   ("NN", "entropy"), ("NN", "max_prob"), ("PlattScalingNN", "entropy"),
   ("PlattScalingNN", "max_prob"), ("MCDropout", "entropy"),
   ("MCDropout", "std"), ("MCDropout", "mutual_information"),
   ("BBB", "entropy"), ("BBB", "std"), ("BBB", "mutual_information"),
   ("NNEnsemble", "entropy"), ("NNEnsemble", "std"),
   ("NNEnsemble", "mutual_information"), ("BootstrappedNNEnsemble", "entropy"),
   ("BootstrappedNNEnsemble", "std"),
   ("BootstrappedNNEnsemble", "mutual_information"),
   ("AnchoredNNEnsemble", "entropy"), ("AnchoredNNEnsemble", "std"),
   ("AnchoredNNEnsemble", "mutual_information")]

/-- Dictionary lookup SCORING_FUNCS[(self.name, scoring_func)]. -/
def lookupPair (l : List ((String × String) × α)) (k : String × String) :
    Option α :=
  match l with
  | [] => none
  | e :: es => if e.1 = k then some e.2 else lookupPair es k

/-- The fields of NoveltyEstimator that get_novelty_score reads: the
method_name the estimator was registered under and the trained model. -/
structure NoveltyEstimator where
  name : String
  model : Model

/-- NoveltyEstimator.get_novelty_score: asserts the model name is in
AVAILABLE_MODELS, asserts (name, scoring_func) is a key of SCORING_FUNCS,
then calls the registered function on (model, data).  A failed Python
assert raises AssertionError with the given message. -/
def NoveltyEstimator.get_novelty_score
    (entropy max_prob : List (List ℚ) → Score) (ne : NoveltyEstimator)
    (data : Data) (scoring_func : String) : Except String Score :=
  if ne.name ∈ AVAILABLE_MODELS then
    match lookupPair (SCORING_FUNCS entropy max_prob) (ne.name, scoring_func) with
    | some f => .ok (f ne.model data)
    | none =>
      .error ("AssertionError: Unknown combination of " ++ ne.name ++ " and "
        ++ scoring_func ++ " found")
  else .error ("AssertionError: Unknown model " ++ ne.name ++ " found")

/-- Whether an Except value is an error (a raised exception). -/
def isErr : Except String α → Prop
  | .error _ => True
  | .ok _ => False

end NoveltyEstimation

namespace HiVae

theorem vsum_cons (a : ℚ) (l : List ℚ) : vsum (a :: l) = a + vsum l := rfl

theorem length_idxMapFrom (f : ℕ → α → β) :
    ∀ (k : ℕ) (l : List α), (idxMapFrom f k l).length = l.length
  | _, [] => rfl
  | k, _ :: as => by simp [idxMapFrom, length_idxMapFrom f (k + 1) as]

theorem length_idxMap (f : ℕ → α → β) (l : List α) :
    (idxMap f l).length = l.length :=
  length_idxMapFrom f 0 l

theorem getD_idxMapFrom (f : ℕ → α → β) :
    ∀ (k : ℕ) (l : List α) (i : ℕ) (d : β) (d2 : α), i < l.length →
      (idxMapFrom f k l).getD i d = f (k + i) (l.getD i d2)
  | _, [], i, _, _, h => absurd h (by simp)
  | k, a :: as, 0, d, d2, _ => by simp [idxMapFrom]
  | k, a :: as, i + 1, d, d2, h => by
    have ih := getD_idxMapFrom f (k + 1) as i d d2 (by simpa using h)
    simp only [idxMapFrom, List.getD_cons_succ]
    rw [ih]
    congr 1
    omega

theorem getD_idxMap (f : ℕ → α → β) (l : List α) (i : ℕ) (d : β) (d2 : α)
    (h : i < l.length) : (idxMap f l).getD i d = f i (l.getD i d2) := by
  simpa using getD_idxMapFrom f 0 l i d d2 h

theorem getD_map (f : α → β) :
    ∀ (l : List α) (i : ℕ) (d : β) (d2 : α), i < l.length →
      (l.map f).getD i d = f (l.getD i d2)
  | [], i, _, _, h => absurd h (by simp)
  | _ :: _, 0, _, _, _ => rfl
  | _ :: as, i + 1, d, d2, h => by
    simpa [List.getD_cons_succ] using getD_map f as i d d2 (by simpa using h)

theorem getD_zipWith (f : α → β → γ) :
    ∀ (as : List α) (bs : List β) (i : ℕ) (d : γ) (da : α) (db : β),
      i < as.length → i < bs.length →
      (List.zipWith f as bs).getD i d = f (as.getD i da) (bs.getD i db)
  | [], _, i, _, _, _, ha, _ => absurd ha (by simp)
  | _ :: _, [], i, _, _, _, _, hb => absurd hb (by simp)
  | _ :: _, _ :: _, 0, _, _, _, _, _ => rfl
  | a :: as, b :: bs, i + 1, d, da, db, ha, hb => by
    simpa [List.getD_cons_succ] using
      getD_zipWith f as bs i d da db (by simpa using ha) (by simpa using hb)

theorem length_zipWith3 (f : α → β → γ → δ) :
    ∀ (as : List α) (bs : List β) (cs : List γ),
      (zipWith3 f as bs cs).length =
        min (min as.length bs.length) cs.length
  | [], bs, cs => by simp [zipWith3]
  | _ :: _, [], cs => by simp [zipWith3]
  | _ :: _, _ :: _, [] => by simp [zipWith3]
  | a :: as, b :: bs, c :: cs => by
    simp [zipWith3, length_zipWith3 f as bs cs]
    omega

theorem getD_zipWith3 (f : α → β → γ → δ) :
    ∀ (as : List α) (bs : List β) (cs : List γ) (i : ℕ) (d : δ) (da : α)
      (db : β) (dc : γ), i < as.length → i < bs.length → i < cs.length →
      (zipWith3 f as bs cs).getD i d =
        f (as.getD i da) (bs.getD i db) (cs.getD i dc)
  | [], _, _, i, _, _, _, _, ha, _, _ => absurd ha (by simp)
  | _ :: _, [], _, i, _, _, _, _, _, hb, _ => absurd hb (by simp)
  | _ :: _, _ :: _, [], i, _, _, _, _, _, _, hc => absurd hc (by simp)
  | _ :: _, _ :: _, _ :: _, 0, _, _, _, _, _, _, _ => rfl
  | a :: as, b :: bs, c :: cs, i + 1, d, da, db, dc, ha, hb, hc => by
    simpa [zipWith3, List.getD_cons_succ] using
      getD_zipWith3 f as bs cs i d da db dc (by simpa using ha)
        (by simpa using hb) (by simpa using hc)

theorem listMapE_ok_length {f : α → Except String β} :
    ∀ {l : List α} {ys : List β}, listMapE f l = .ok ys → ys.length = l.length
  | [], ys, h => by
    simp only [listMapE] at h
    cases h
    rfl
  | a :: as, ys, h => by
    simp only [listMapE] at h
    cases hfa : f a with
    | error e => simp [hfa] at h
    | ok b =>
      cases hrest : listMapE f as with
      | error e => simp [hfa, hrest] at h
      | ok bs =>
        simp [hfa, hrest] at h
        simp [← h, listMapE_ok_length hrest]

theorem listMapE_ok_mem {f : α → Except String β} :
    ∀ {l : List α} {ys : List β}, listMapE f l = .ok ys →
      ∀ y ∈ ys, ∃ a ∈ l, f a = .ok y
  | [], ys, h => by
    simp only [listMapE] at h
    cases h
    simp
  | a :: as, ys, h => by
    simp only [listMapE] at h
    cases hfa : f a with
    | error e => simp [hfa] at h
    | ok b =>
      cases hrest : listMapE f as with
      | error e => simp [hfa, hrest] at h
      | ok bs =>
        simp [hfa, hrest] at h
        intro y hy
        rw [← h] at hy
        rcases List.mem_cons.mp hy with h1 | h2
        · exact ⟨a, List.mem_cons_self a as, h1 ▸ hfa⟩
        · obtain ⟨a2, ha2, hfa2⟩ := listMapE_ok_mem hrest y h2
          exact ⟨a2, List.mem_cons_of_mem a ha2, hfa2⟩

theorem listMapE_ok_forall {f : α → Except String β} :
    ∀ {l : List α} {ys : List β}, listMapE f l = .ok ys →
      ∀ a ∈ l, ∃ b ∈ ys, f a = .ok b
  | [], ys, h => by simp
  | a :: as, ys, h => by
    simp only [listMapE] at h
    cases hfa : f a with
    | error e => simp [hfa] at h
    | ok b =>
      cases hrest : listMapE f as with
      | error e => simp [hfa, hrest] at h
      | ok bs =>
        simp [hfa, hrest] at h
        intro a2 ha2
        rcases List.mem_cons.mp ha2 with h1 | h2
        · exact ⟨b, by simp [← h], h1 ▸ hfa⟩
        · obtain ⟨b2, hb2, hfb2⟩ := listMapE_ok_forall hrest a2 h2
          exact ⟨b2, by simp [← h, hb2], hfb2⟩

theorem listMapE_ok_of_forall {f : α → Except String β} :
    ∀ {l : List α}, (∀ a ∈ l, ∃ b, f a = .ok b) →
      ∃ ys, listMapE f l = .ok ys
  | [], _ => ⟨[], rfl⟩
  | a :: as, h => by
    obtain ⟨b, hb⟩ := h a (List.mem_cons_self a as)
    obtain ⟨bs, hbs⟩ :=
      listMapE_ok_of_forall (fun x hx => h x (List.mem_cons_of_mem a hx))
    exact ⟨b :: bs, by simp [listMapE, hb, hbs]⟩

theorem listMapE_error_head {f : α → Except String β} {a : α} {l : List α}
    {e : String} (h : f a = .error e) : listMapE f (a :: l) = .error e := by
  simp [listMapE, h]

theorem Linear.apply_ok_inlen {l : Linear} {x : Vec} {y : Vec}
    (h : l.apply x = .ok y) : x.length = l.inF := by
  by_contra hne
  simp [Linear.apply, hne] at h

theorem Linear.apply_ok_length {l : Linear} {x : Vec} {y : Vec} (hwf : l.WF)
    (h : l.apply x = .ok y) : y.length = l.outF := by
  have hin := Linear.apply_ok_inlen h
  simp [Linear.apply, hin] at h
  simp [← h, hwf.1, hwf.2]

theorem Linear.apply_ok_of_len {l : Linear} {x : Vec}
    (h : x.length = l.inF) : ∃ y, l.apply x = .ok y := by
  refine ⟨List.zipWith (fun wr bi => dot wr x + bi) l.w l.b, ?_⟩
  simp [Linear.apply, h]

theorem Linear.apply_error_of_ne {l : Linear} {x : Vec}
    (h : x.length ≠ l.inF) :
    l.apply x = .error "RuntimeError: mat1 and mat2 shapes cannot be multiplied" := by
  simp [Linear.apply, h]

theorem applyLinLeaky_ok {l : Linear} {x : Vec} (hwf : l.WF)
    (h : x.length = l.inF) :
    ∃ y, applyLinLeaky l x = .ok y ∧ y.length = l.outF := by
  obtain ⟨y, hy⟩ := Linear.apply_ok_of_len h
  refine ⟨y.map leakyRelu, ?_, ?_⟩
  · simp [applyLinLeaky, hy]
  · simp [Linear.apply_ok_length hwf hy]

theorem applyChain_ok :
    ∀ {ls : List Linear} {n m : ℕ} {x : Vec}, chainWF n ls m →
      x.length = n → ∃ y, applyChain ls x = .ok y ∧ y.length = m
  | [], n, m, x, hwf, hx => ⟨x, rfl, hwf ▸ hx⟩
  | l :: ls, n, m, x, hwf, hx => by
    obtain ⟨hlwf, hlin, hrest⟩ := hwf
    obtain ⟨y, hy, hylen⟩ := applyLinLeaky_ok hlwf (by rw [hx, hlin])
    obtain ⟨z, hz, hzlen⟩ := applyChain_ok hrest hylen
    exact ⟨z, by simp [applyChain, hy, hz], hzlen⟩

theorem foldr_max_le {m : ℕ} :
    ∀ {l : List ℕ}, (∀ x ∈ l, x ≤ m) → l.foldr Nat.max 0 ≤ m
  | [], _ => Nat.zero_le m
  | a :: as, h => by
    simp only [List.foldr_cons]
    exact Nat.max_le.mpr
      ⟨h a (List.mem_cons_self a as),
       foldr_max_le fun x hx => h x (List.mem_cons_of_mem a hx)⟩

theorem argmaxAux_lt :
    ∀ (xs : List ℚ) (i bi : ℕ) (bv : ℚ), bi < i →
      argmaxAux xs i bi bv < i + xs.length
  | [], i, bi, bv, h => by
    simp only [argmaxAux, List.length_nil]
    omega
  | x :: xs, i, bi, bv, h => by
    simp only [argmaxAux, List.length_cons]
    by_cases hlt : bv < x
    · have := argmaxAux_lt xs (i + 1) i x (Nat.lt_succ_self i)
      simp only [if_pos hlt]
      omega
    · have := argmaxAux_lt xs (i + 1) bi bv (Nat.lt_succ_of_lt h)
      simp only [if_neg hlt]
      omega

theorem argmaxIdx_lt_length {v : List ℚ} (h : v ≠ []) :
    argmaxIdx v < v.length := by
  cases v with
  | nil => exact absurd rfl h
  | cons x xs =>
    have := argmaxAux_lt xs 1 0 x Nat.zero_lt_one
    simp only [argmaxIdx, List.length_cons]
    omega

end HiVae

namespace NoveltyEstimation

theorem lookupPair_mem :
    ∀ {l : List ((String × String) × α)} {k : String × String} {f : α},
      lookupPair l k = some f → k ∈ l.map (fun p => p.1)
  | [], k, f, h => by simp [lookupPair] at h
  | e :: es, k, f, h => by
    simp only [lookupPair] at h
    by_cases hek : e.1 = k
    · simp [hek]
    · simp only [if_neg hek] at h
      simp [lookupPair_mem h]

theorem map_fst_SCORING_FUNCS (entropy max_prob : List (List ℚ) → Score) :
    (SCORING_FUNCS entropy max_prob).map (fun p => p.1) = SCORING_KEYS := rfl

theorem keys_fst_available : ∀ k ∈ SCORING_KEYS, k.1 ∈ AVAILABLE_MODELS := by
  decide

/-- C7: NoveltyEstimator.get_novelty_score raises a descriptive error if and
only if the model name is not in AVAILABLE_MODELS or the (model name,
scoring function) pair is not a key of SCORING_FUNCS; for every registered
pair it returns exactly the registered scoring function applied to
(model, data). -/
theorem c7_dispatch_correct (entropy max_prob : List (List ℚ) → Score)
    (ne : NoveltyEstimator) (data : Data) (scoring_func : String) :
    (isErr (ne.get_novelty_score entropy max_prob data scoring_func) ↔
      ne.name ∉ AVAILABLE_MODELS ∨
        lookupPair (SCORING_FUNCS entropy max_prob) (ne.name, scoring_func) =
          none) ∧
    ∀ f,
      lookupPair (SCORING_FUNCS entropy max_prob) (ne.name, scoring_func) =
          some f →
        ne.get_novelty_score entropy max_prob data scoring_func =
          .ok (f ne.model data) := by
  constructor
  · by_cases hmem : ne.name ∈ AVAILABLE_MODELS
    · cases hlk :
        lookupPair (SCORING_FUNCS entropy max_prob) (ne.name, scoring_func) with
      | some f =>
        simp [NoveltyEstimator.get_novelty_score, hmem, hlk, isErr]
      | none =>
        simp [NoveltyEstimator.get_novelty_score, hmem, hlk, isErr]
    · simp [NoveltyEstimator.get_novelty_score, hmem, isErr]
  · intro f hf
    have hmem : ne.name ∈ AVAILABLE_MODELS := by
      have hk := lookupPair_mem hf
      rw [map_fst_SCORING_FUNCS] at hk
      exact keys_fst_available _ hk
    simp [NoveltyEstimator.get_novelty_score, hmem, hf]

/-- Witness for C7: the registered pair ("NN", "entropy") dispatches to the
entropy-of-predict_proba function. -/
theorem c7_dispatch_witness :
    NoveltyEstimator.get_novelty_score (fun P => P.map fun _ => 0)
        (fun P => P.map fun _ => 1)
        ⟨"NN",
          ⟨fun _ => [], fun _ => [], fun _ => [], fun _ => [], fun _ => [],
            id, fun _ => [], fun _ => []⟩⟩
        [[1, 2]] "entropy" =
      .ok [0] := by
  exact
    (c7_dispatch_correct (fun P => P.map fun _ => 0) (fun P => P.map fun _ => 1)
          ⟨"NN",
            ⟨fun _ => [], fun _ => [], fun _ => [], fun _ => [], fun _ => [],
              id, fun _ => [], fun _ => []⟩⟩ [[1, 2]] "entropy").2
      (fun model data => (fun P : List (List ℚ) => P.map fun _ => 0) (model.predict_proba data))
      rfl

end NoveltyEstimation

namespace HiVae

/-- C6 (code_bug): HIVAE.reconstruct never returns a reconstruction matrix:
the line mean, std, observed_mask = self.encoder(input_tensor) unpacks the
encoder's 4-tuple into three names and raises for every input, and even a
3-tuple would then pass the reconstruction_mode string where
HIDecoder.forward expects the mixture one-hot tensor. -/
theorem c6_reconstruct_always_raises (qexp qlog qsqrt : ℚ → ℚ)
    (M : HIVAEModule) (s : BNState) (g : ℕ → ℕ → ℚ) (X : OptMat) :
    ∃ e, (HIVAE.reconstruct qexp qlog qsqrt M s g X).2.2 = .error e := by
  unfold HIVAE.reconstruct HIVAEModule.reconstruct
  cases h : (M.encoder.forward qexp qlog qsqrt s g X).2 with
  | error e => exact ⟨e, by simp [h]⟩
  | ok out =>
    exact ⟨"ValueError: too many values to unpack (expected 3)",
      by simp [h, unpack3]⟩

/-- C3 counterexample: the claim says the running normalization statistics
are reset only when a new training run begins and accumulate across
successive training batches.  In the code the reset hook is a forward
pre-hook, so after two successive batches within one run the statistics are
identical to what a run that saw a completely different first batch
produces (the first batch left no trace), and num_batches_tracked is 1, not
2, after two batches. -/
theorem c3_counterexample_running_stats_not_accumulated :
    bnStepTrain (bnStepTrain ⟨[0], [1], 0⟩ [[2], [4]]) [[6], [8]] =
        bnStepTrain (bnStepTrain ⟨[0], [1], 0⟩ [[100], [200]]) [[6], [8]] ∧
      bnStepTrain ⟨[0], [1], 0⟩ [[2], [4]] ≠
        bnStepTrain ⟨[0], [1], 0⟩ [[100], [200]] ∧
      (bnStepTrain (bnStepTrain ⟨[0], [1], 0⟩ [[2], [4]]) [[6], [8]]).num_batches_tracked
        = 1 := by
  refine ⟨?_, ?_, rfl⟩ <;>
    norm_num [bnStepTrain, bnUpdate, HIEncoder.batch_norm_reset_hook, idxMap,
      idxMapFrom, colMean, colVarUnbiased, getCol, vmean, vsum,
      BNState.mk.injEq]

/-- C3 amended: the reset hook runs as a forward pre-hook at the start of
every forward pass of the batch-norm layer, so after any training batch the
running statistics are those of that batch alone (independent of the
statistics accumulated before), and num_batches_tracked is always 1
afterwards.  Decoders only read this state (in the embedding the decoder
reconstruction functions take the state as an input and return no state),
so they never mutate it. -/
theorem c3_amended_reset_every_forward (s s2 : BNState) (X : Mat)
    (hm : s.running_mean.length = s2.running_mean.length)
    (hv : s.running_var.length = s2.running_var.length) :
    bnStepTrain s X = bnStepTrain s2 X ∧
      (bnStepTrain s X).num_batches_tracked = 1 := by
  constructor
  · simp only [bnStepTrain, HIEncoder.batch_norm_reset_hook, bnUpdate]
    rw [show s.running_mean.map (fun _ => (0 : ℚ)) =
          s2.running_mean.map (fun _ => 0) from by
        simp [List.map_const', hm],
      show s.running_var.map (fun _ => (1 : ℚ)) =
          s2.running_var.map (fun _ => 1) from by
        simp [List.map_const', hv]]
  · rfl

/-- Witness for C3's amended claim at a concrete state pair and batch. -/
theorem c3_amended_witness :
    (([5] : Vec).length = ([0] : Vec).length ∧
        ([7] : Vec).length = ([1] : Vec).length) ∧
      bnStepTrain ⟨[5], [7], 3⟩ [[2], [4]] = bnStepTrain ⟨[0], [1], 0⟩ [[2], [4]] ∧
        (bnStepTrain ⟨[5], [7], 3⟩ [[2], [4]]).num_batches_tracked = 1 :=
  ⟨⟨rfl, rfl⟩, c3_amended_reset_every_forward ⟨[5], [7], 3⟩ ⟨[0], [1], 0⟩
    [[2], [4]] rfl rfl⟩

/-- C5 counterexample: with a standard-normal prior (p_mean = 0, p_var = 1)
and log/exp instantiated so that log 1 = 0 and exp(log x) = x, the KL term
of HIVAEModule.forward at mean = [0], std = [1], latent_dim = 1 is 1, while
the classic closed-form Gaussian KL at the same point is 0. -/
theorem c5_counterexample_kl_not_classic :
    klLatentRow (fun x => x + 1) (fun x => x - 1) 1 [0] [1] [0] [1] ≠
      classicGaussianKL (fun x => x - 1) [0] [1] := by
  norm_num [klLatentRow, classicGaussianKL, zipWith4, vsum]

theorem kl_sum_aux (qexp qlog : ℚ → ℚ) (hlog1 : qlog 1 = 0) :
    ∀ (mean std pmean pvar : Vec),
      std.length = mean.length → pmean.length = mean.length →
      pvar.length = mean.length → (∀ x ∈ pmean, x = 0) →
      (∀ x ∈ pvar, x = 1) → (∀ σ ∈ std, qexp (qlog (σ ^ 2)) = σ ^ 2) →
      vsum (zipWith4
          (fun μ σ pm pv =>
            qexp (qlog (σ ^ 2) - qlog pv) + (pm - μ) ^ 2 / pv - qlog (σ ^ 2) +
              qlog pv)
          mean std pmean pvar) =
        vsum (List.zipWith (fun μ σ => σ ^ 2 + μ ^ 2 - 1 - qlog (σ ^ 2)) mean std)
          + mean.length
  | [], std, pmean, pvar, h1, h2, h3, _, _, _ => by
    rw [List.length_eq_zero.mp h1, List.length_eq_zero.mp h2,
      List.length_eq_zero.mp h3]
    simp [zipWith4, vsum]
  | μ :: mean, std, pmean, pvar, h1, h2, h3, hpm, hpv, hexp => by
    cases std with
    | nil => simp at h1
    | cons σ stds =>
      cases pmean with
      | nil => simp at h2
      | cons pm pms =>
        cases pvar with
        | nil => simp at h3
        | cons pv pvs =>
          have hpm0 : pm = 0 := hpm pm (List.mem_cons_self _ _)
          have hpv1 : pv = 1 := hpv pv (List.mem_cons_self _ _)
          have hexpσ : qexp (qlog (σ ^ 2)) = σ ^ 2 :=
            hexp σ (List.mem_cons_self _ _)
          have ih :=
            kl_sum_aux qexp qlog hlog1 mean stds pms pvs (by simpa using h1)
              (by simpa using h2) (by simpa using h3)
              (fun x hx => hpm x (List.mem_cons_of_mem _ hx))
              (fun x hx => hpv x (List.mem_cons_of_mem _ hx))
              (fun x hx => hexp x (List.mem_cons_of_mem _ hx))
          simp only [zipWith4, List.zipWith_cons_cons]
          rw [vsum_cons, vsum_cons, ih, hpm0, hpv1, hlog1]
          simp only [List.length_cons]
          rw [sub_zero, hexpσ]
          push_cast
          ring

/-- C5 amended: for a prior with p_mean = 0 and p_var = 1 (and log/exp
behaving as logarithm and exponential on the values involved), the latent
KL term computed in HIVAEModule.forward equals the classic closed-form KL
divergence to the standard normal PLUS the latent dimension: the code adds
0.5 * latent_dim instead of subtracting it. -/
theorem c5_amended_kl_classic_plus_latent_dim (qexp qlog : ℚ → ℚ) (d : ℕ)
    (mean std pmean pvar : Vec) (hlen1 : mean.length = d)
    (hlen2 : std.length = mean.length) (hlen3 : pmean.length = mean.length)
    (hlen4 : pvar.length = mean.length) (hpm : ∀ x ∈ pmean, x = 0)
    (hpv : ∀ x ∈ pvar, x = 1) (hlog1 : qlog 1 = 0)
    (hexplog : ∀ σ ∈ std, qexp (qlog (σ ^ 2)) = σ ^ 2) :
    klLatentRow qexp qlog d mean std pmean pvar =
      classicGaussianKL qlog mean std + d := by
  have haux :=
    kl_sum_aux qexp qlog hlog1 mean std pmean pvar hlen2 hlen3 hlen4 hpm hpv
      hexplog
  simp only [klLatentRow, classicGaussianKL]
  rw [haux, hlen1]
  ring

/-- C1 (code_bug): HIDecoder.reconstruction_error does NOT insulate observed
samples from unobserved cells.  With one categorical feature, batch
[[0], [1]] and observed mask [[False], [True]] (sample 0's cell is
unobserved), changing the unobserved cell from 0 to 1 changes the observed
sample 1's reconstruction loss from -9/2 to -22/5: the categorical
decoder's F.cross_entropy has reduction="mean", so the scalar batch mean -
which contains the unobserved sample's term - is broadcast into every
sample's loss entry before the mask zeroes only the unobserved entries.
(Functions instantiated: exp x = x + 2, log x = x, sqrt x = x.) -/
theorem c1_unobserved_cell_leaks_into_batch_loss :
    HIDecoder.reconstruction_error (fun x => x + 2) (fun x => x) (fun x => x)
        0
        ⟨[.categorical 1], 1, [],
          [.categorical ⟨⟨2, 2, [[0, 0], [0, 0]], [0, 1]⟩⟩]⟩
        ⟨[0], [1], 0⟩ [[0], [1]] [[0], [0]] [[1], [1]] [[false], [true]] =
      .ok [0, -9/2] ∧
    HIDecoder.reconstruction_error (fun x => x + 2) (fun x => x) (fun x => x)
        0
        ⟨[.categorical 1], 1, [],
          [.categorical ⟨⟨2, 2, [[0, 0], [0, 0]], [0, 1]⟩⟩]⟩
        ⟨[0], [1], 0⟩ [[1], [1]] [[0], [0]] [[1], [1]] [[false], [true]] =
      .ok [0, -22/5] := by
  constructor <;>
    norm_num [HIDecoder.reconstruction_error, listMapE, applyChain,
      VarDecoder.reconColumn, CategoricalDecoder.reconstruction_error,
      Linear.apply, dot, vsum, softmaxRow, crossEntropyMean, logSoftmaxAt,
      vmean, ratTrunc, idxMap, idxMapFrom, getCol, List.range_succ]

/-- C2 (code_bug): for a two-sample batch with a categorical feature and
different true classes, HIDecoder.reconstruction_error gives both samples
the identical value -9/2 (the negated batch-mean cross-entropy broadcast
over the column), while the per-sample negative log-likelihoods of the two
true classes under the decoder's softmax distribution are -2/5 and -3/5:
the code's value is one scalar per batch (with the sign of a
log-likelihood), not a per-sample negative log-likelihood.
(Functions instantiated: exp x = x + 2, log x = x, sqrt x = x.) -/
theorem c2_categorical_error_is_batch_scalar :
    HIDecoder.reconstruction_error (fun x => x + 2) (fun x => x) (fun x => x)
        0
        ⟨[.categorical 1], 1, [],
          [.categorical ⟨⟨2, 2, [[0, 0], [0, 0]], [0, 1]⟩⟩]⟩
        ⟨[0], [1], 0⟩ [[0], [1]] [[0], [0]] [[1], [1]] [[true], [true]] =
      .ok [-9/2, -9/2] ∧
    perSampleCatNLL (fun x => x + 2) (fun x => x)
        ⟨⟨2, 2, [[0, 0], [0, 0]], [0, 1]⟩⟩ [0, 1] [[0, 1], [0, 1]] =
      .ok [-2/5, -3/5] ∧
    (-9/2 : ℚ) ≠ -2/5 ∧ (-9/2 : ℚ) ≠ -3/5 := by
  refine ⟨?_, ?_, by norm_num, by norm_num⟩ <;>
    norm_num [HIDecoder.reconstruction_error, listMapE, applyChain,
      VarDecoder.reconColumn, CategoricalDecoder.reconstruction_error,
      perSampleCatNLL, Linear.apply, dot, vsum, softmaxRow, crossEntropyMean,
      logSoftmaxAt, vmean, ratTrunc, idxMap, idxMapFrom, getCol,
      List.range_succ]

/-- Witness for C5's amended claim at latent_dim = 1, mean = [0], std = [1],
with log x = x - 1 and exp x = x + 1. -/
theorem c5_amended_witness :
    (([0] : Vec).length = 1 ∧ ((fun x => x - 1) : ℚ → ℚ) 1 = 0) ∧
      klLatentRow (fun x => x + 1) (fun x => x - 1) 1 [0] [1] [0] [1] =
        classicGaussianKL (fun x => x - 1) [0] [1] + 1 := by
  refine ⟨⟨rfl, by norm_num⟩, ?_⟩
  have h :=
    c5_amended_kl_classic_plus_latent_dim (fun x => x + 1) (fun x => x - 1) 1
      [0] [1] [0] [1] rfl rfl rfl rfl (by simp) (by simp) (by norm_num)
      (by intro σ hσ; simp at hσ; norm_num [hσ])
  simpa using h

theorem encodeCell_ok_of_inRange {ft : FeatType} {x : ℚ} (hwf : ft.wf)
    (hr : ft.inRange x) :
    ∃ c, encodeCell ft x = .ok c ∧ c.length = ft.encWidth := by
  cases ft with
  | real => exact ⟨[x], rfl, rfl⟩
  | positive_real => exact ⟨[x], rfl, rfl⟩
  | count => exact ⟨[x], rfl, rfl⟩
  | categorical fmax =>
    obtain ⟨h0, h1⟩ := hr
    have hcast : (((fmax + 1).toNat : ℤ)) = fmax + 1 :=
      Int.toNat_of_nonneg (by exact Int.le_add_one hwf)
    have hcond : 0 ≤ ratTrunc x ∧ ratTrunc x < (((fmax + 1).toNat : ℕ) : ℤ) :=
      ⟨h0, by rw [hcast]; exact h1⟩
    refine ⟨(List.range (fmax + 1).toNat).map
        fun (i : ℕ) => if (i : ℤ) = ratTrunc x then (1 : ℚ) else 0, ?_, ?_⟩
    · simp only [encodeCell, if_pos hcond]
    · simp [FeatType.encWidth]
  | ordinal fmin fmax =>
    refine ⟨(List.range (fmax - fmin + 1).toNat).map
        fun (i : ℕ) => if (i : ℚ) ≤ x then (1 : ℚ) else 0, rfl, ?_⟩
    simp [FeatType.encWidth]

theorem foldl_featWidthZ (fts : List FeatType) :
    ∀ a : ℤ, fts.foldl (fun acc ft => acc + featWidthZ ft) a =
      a + HIEncoder.get_encoded_input_size fts := by
  induction fts with
  | nil => intro a; simp [HIEncoder.get_encoded_input_size]
  | cons ft fts ih =>
    intro a
    simp only [HIEncoder.get_encoded_input_size, List.foldl_cons]
    rw [ih, ih (0 + featWidthZ ft)]
    ring

theorem encWidth_cast_eq {ft : FeatType} (hwf : ft.wf) :
    (ft.encWidth : ℤ) = featWidthZ ft := by
  cases ft with
  | real => rfl
  | positive_real => rfl
  | count => rfl
  | categorical fmax =>
    simp only [FeatType.encWidth, featWidthZ]
    exact Int.toNat_of_nonneg (Int.le_add_one hwf)
  | ordinal fmin fmax =>
    obtain ⟨h1, h2⟩ := hwf
    simp only [FeatType.encWidth, featWidthZ]
    exact Int.toNat_of_nonneg (by omega)

theorem sumWidths_cons (ft : FeatType) (fts : List FeatType) :
    sumWidths (ft :: fts) = ft.encWidth + sumWidths fts := rfl

theorem sumWidths_eq_gis :
    ∀ {fts : List FeatType}, (∀ ft ∈ fts, ft.wf) →
      (sumWidths fts : ℤ) = HIEncoder.get_encoded_input_size fts
  | [], _ => rfl
  | ft :: fts, hwf => by
    have ih := sumWidths_eq_gis fun f hf => hwf f (List.mem_cons_of_mem ft hf)
    have hw := encWidth_cast_eq (hwf ft (List.mem_cons_self ft fts))
    rw [sumWidths_cons]
    push_cast
    rw [hw, ih]
    simp only [HIEncoder.get_encoded_input_size, List.foldl_cons]
    rw [foldl_featWidthZ, foldl_featWidthZ]
    ring

/-- C8: for every well-formed feature list and row of matching length with
in-range values, the categorical/thermometer expansion succeeds and its
width is the sum over features of the encoded width (1 for
real/positive_real/count, max+1 for categorical, max-min+1 for ordinal),
which also equals HIEncoder.get_encoded_input_size of the same feature
list. -/
theorem c8_encoded_width :
    ∀ (fts : List FeatType) (row : Vec), (∀ ft ∈ fts, ft.wf) →
      row.length = fts.length →
      (∀ p ∈ fts.zip row, p.1.inRange p.2) →
      ∃ ys, HIEncoder.categorical_encode_row fts row = .ok ys ∧
        ys.length = sumWidths fts ∧
        (sumWidths fts : ℤ) = HIEncoder.get_encoded_input_size fts
  | [], row, hwf, hlen, _ => by
    rw [List.length_eq_zero.mp hlen]
    exact ⟨[], rfl, rfl, rfl⟩
  | ft :: fts, row, hwf, hlen, hr => by
    cases row with
    | nil => simp at hlen
    | cons x xs =>
      obtain ⟨c, hc, hclen⟩ :=
        encodeCell_ok_of_inRange (hwf ft (List.mem_cons_self ft fts))
          (hr (ft, x) (by simp))
      obtain ⟨ys, hys, hyslen, hcast⟩ :=
        c8_encoded_width fts xs
          (fun f hf => hwf f (List.mem_cons_of_mem ft hf))
          (by simpa using hlen)
          (fun p hp => hr p (List.mem_cons_of_mem (ft, x) hp))
      simp only [HIEncoder.categorical_encode_row, List.zip_cons_cons] at hys ⊢
      cases hrest : listMapE (fun p : FeatType × ℚ => encodeCell p.1 p.2)
          (fts.zip xs) with
      | error e => simp [hrest] at hys
      | ok cells =>
        simp only [hrest] at hys
        refine ⟨c ++ cells.flatten, ?_, ?_, ?_⟩
        · simp [listMapE, hc, hrest]
        · have : cells.flatten.length = sumWidths fts := by
            cases hys; exact hyslen
          simp [this, hclen, sumWidths]
        · exact sumWidths_eq_gis hwf

/-- Witness for C8 at feature list [real, categorical(max=2),
ordinal(min=1, max=3)] and row [5/2, 1, 2]: the expansion is
[5/2] ++ [0, 1, 0] ++ [1, 1, 1], of width 1 + 3 + 3 = 7. -/
theorem c8_encoded_width_witness :
    (∀ ft ∈ [FeatType.real, .categorical 2, .ordinal 1 3], ft.wf) ∧
      ([5/2, 1, 2] : Vec).length =
        ([FeatType.real, .categorical 2, .ordinal 1 3]).length ∧
      (∀ p ∈ ([FeatType.real, .categorical 2, .ordinal 1 3]).zip
          ([5/2, 1, 2] : Vec), p.1.inRange p.2) ∧
      ∃ ys,
        HIEncoder.categorical_encode_row
            [FeatType.real, .categorical 2, .ordinal 1 3] [5/2, 1, 2] =
          .ok ys ∧
        ys.length = sumWidths [FeatType.real, .categorical 2, .ordinal 1 3] ∧
        (sumWidths [FeatType.real, .categorical 2, .ordinal 1 3] : ℤ) =
          HIEncoder.get_encoded_input_size
            [FeatType.real, .categorical 2, .ordinal 1 3] := by
  have h1 : ∀ ft ∈ [FeatType.real, .categorical 2, .ordinal 1 3], ft.wf := by
    intro ft hft
    simp only [List.mem_cons, List.mem_singleton] at hft
    rcases hft with rfl | rfl | rfl | h
    · trivial
    · simp [FeatType.wf]
    · simp [FeatType.wf]
    · simp at h
  have h3 : ∀ p ∈ ([FeatType.real, .categorical 2, .ordinal 1 3]).zip
      ([5/2, 1, 2] : Vec), p.1.inRange p.2 := by
    intro p hp
    simp only [List.zip_cons_cons, List.zip_nil_right, List.mem_cons] at hp
    rcases hp with rfl | rfl | rfl | h
    · trivial
    · norm_num [FeatType.inRange, ratTrunc]
    · trivial
    · simp at h
  exact ⟨h1, rfl, h3, c8_encoded_width _ _ h1 rfl h3⟩

theorem getD_mem : ∀ {l : List α} {i : ℕ} {d : α}, i < l.length →
    l.getD i d ∈ l
  | [], i, d, h => absurd h (by simp)
  | a :: as, 0, d, _ => List.mem_cons_self a as
  | a :: as, i + 1, d, h => by
    simpa [List.getD_cons_succ] using
      List.mem_cons_of_mem a (getD_mem (by simpa using h))

theorem zeroFill_getD_row {X : OptMat} {i : ℕ} (hi : i < X.length) :
    (zeroFill X).getD i [] = (X.getD i []).map (fun c => c.getD 0) :=
  getD_map _ X i [] [] hi

theorem normalizeInPlace_getD_row (qlog : ℚ → ℚ) (fts : List FeatType)
    {X : OptMat} {i : ℕ} (hi : i < X.length) :
    (normalizeInPlace qlog fts X).getD i [] =
      applyLogRow qlog fts ((zeroFill X).getD i []) := by
  unfold normalizeInPlace
  exact getD_map _ (zeroFill X) i [] [] (by simpa [zeroFill] using hi)

theorem applyLogRow_getD (qlog : ℚ → ℚ) (fts : List FeatType) (row : Vec)
    {j : ℕ} (hj : j < fts.length) (hjr : j < row.length) :
    (applyLogRow qlog fts row).getD j 0 =
      (if (fts.getD j .real).isLogTransformed then
        qlog (relu (row.getD j 0) + 1 / 100000000)
      else row.getD j 0) := by
  unfold applyLogRow
  exact getD_zipWith _ fts row j 0 .real 0 hj hjr

theorem length_applyLogRow (qlog : ℚ → ℚ) (fts : List FeatType) (row : Vec) :
    (applyLogRow qlog fts row).length = min fts.length row.length := by
  simp [applyLogRow]

theorem length_normalizeInPlace (qlog : ℚ → ℚ) (fts : List FeatType)
    (X : OptMat) : (normalizeInPlace qlog fts X).length = X.length := by
  simp [normalizeInPlace, zeroFill]

theorem normalizeInPlace_row_length (qlog : ℚ → ℚ) (fts : List FeatType)
    {X : OptMat} {i : ℕ} (hi : i < X.length)
    (hrect : (X.getD i []).length = fts.length) :
    ((normalizeInPlace qlog fts X).getD i []).length = fts.length := by
  rw [normalizeInPlace_getD_row qlog fts hi, length_applyLogRow,
    zeroFill_getD_row hi, List.length_map, hrect]
  exact Nat.min_self _

theorem bnOutputTrain_getD (qsqrt : ℚ → ℚ) {X : Mat} {i j : ℕ}
    (hi : i < X.length) (hj : j < (X.getD i []).length) :
    ((bnOutputTrain qsqrt X).getD i []).getD j 0 =
      ((X.getD i []).getD j 0 - colMean X j) /
        qsqrt (colVarBiased X j + 1 / 100000) := by
  unfold bnOutputTrain
  rw [getD_map _ X i [] [] hi]
  exact getD_idxMap _ _ j 0 0 hj

theorem length_bnOutputTrain_row (qsqrt : ℚ → ℚ) {X : Mat} {i : ℕ}
    (hi : i < X.length) :
    ((bnOutputTrain qsqrt X).getD i []).length = (X.getD i []).length := by
  unfold bnOutputTrain
  rw [getD_map _ X i [] [] hi]
  exact length_idxMap _ _

/-- Pointwise characterization of the tensor HIEncoder.normalize returns:
entry (i, j) is the in-place (zero-filled, possibly log-transformed) value
for the recovered columns (everything except real and positive_real) and
the batch-norm output for real and positive_real columns. -/
theorem normalize_ret_getD (qlog qsqrt : ℚ → ℚ) (fts : List FeatType)
    (s : BNState) {X : OptMat} {i j : ℕ}
    (hrect : ∀ r ∈ X, r.length = fts.length) (hi : i < X.length)
    (hj : j < fts.length) :
    ((HIEncoder.normalize qlog qsqrt fts s X).2.1.getD i []).getD j 0 =
      (if (fts.getD j .real).isRecovered then
        ((normalizeInPlace qlog fts X).getD i []).getD j 0
      else
        ((bnOutputTrain qsqrt (normalizeInPlace qlog fts X)).getD i []).getD j 0) := by
  have hrow : (X.getD i []).length = fts.length := hrect _ (getD_mem hi)
  have hX1len : (normalizeInPlace qlog fts X).length = X.length :=
    length_normalizeInPlace qlog fts X
  have hX1row : ((normalizeInPlace qlog fts X).getD i []).length = fts.length :=
    normalizeInPlace_row_length qlog fts hi hrow
  have hNlen : (bnOutputTrain qsqrt (normalizeInPlace qlog fts X)).length =
      X.length := by
    simp [bnOutputTrain, hX1len]
  have hNrow :
      ((bnOutputTrain qsqrt (normalizeInPlace qlog fts X)).getD i []).length =
        fts.length := by
    rw [length_bnOutputTrain_row qsqrt (by rw [hX1len]; exact hi)]
    exact hX1row
  have heq : (HIEncoder.normalize qlog qsqrt fts s X).2.1 =
      List.zipWith
        (fun nr xr =>
          zipWith3 (fun ft nv xv => if ft.isRecovered then xv else nv) fts nr
            xr)
        (bnOutputTrain qsqrt (normalizeInPlace qlog fts X))
        (normalizeInPlace qlog fts X) := rfl
  rw [heq,
    getD_zipWith _ _ _ i [] [] [] (by rw [hNlen]; exact hi)
      (by rw [hX1len]; exact hi),
    getD_zipWith3 _ fts _ _ j 0 .real 0 0 hj (by rw [hNrow]; exact hj)
      (by rw [hX1row]; exact hj)]

theorem mem_idxMapFrom {f : ℕ → α → β} :
    ∀ {k : ℕ} {l : List α} {y : β}, y ∈ idxMapFrom f k l →
      ∃ i a, a ∈ l ∧ y = f i a
  | k, [], y, h => by simp [idxMapFrom] at h
  | k, a :: as, y, h => by
    simp only [idxMapFrom, List.mem_cons] at h
    rcases h with h | h
    · exact ⟨k, a, List.mem_cons_self a as, h⟩
    · obtain ⟨i, b, hb, hy⟩ := mem_idxMapFrom h
      exact ⟨i, b, List.mem_cons_of_mem a hb, hy⟩

theorem mem_idxMap {f : ℕ → α → β} {l : List α} {y : β}
    (h : y ∈ idxMap f l) : ∃ i a, a ∈ l ∧ y = f i a :=
  mem_idxMapFrom h

theorem length_softmaxRow (qexp : ℚ → ℚ) (v : List ℚ) :
    (softmaxRow qexp v).length = v.length := by
  simp [softmaxRow]

theorem zeroFill_toOptMat (A : Mat) : zeroFill (toOptMat A) = A := by
  simp [zeroFill, toOptMat, List.map_map, Function.comp_def]

/-- C4 counterexample: the claim says positive_real columns leave normalize
with only their log transform (unchanged by batch normalization).  With a
single positive_real feature and batch [[4], [16]] (log and sqrt
instantiated as the identity to make the arithmetic exact), the log-only
value of cell (0,0) would be 4 + 1e-8, but normalize returns
-600000/3600001: the batch-norm transform IS applied to positive_real
columns (the code's real_mask only recovers columns not in
("real", "positive_real")). -/
theorem c4_counterexample_positive_real_batchnormed :
    ((HIEncoder.normalize (fun x => x) (fun x => x) [FeatType.positive_real]
          ⟨[0], [1], 0⟩ [[some 4], [some 16]]).2.1.getD 0 []).getD 0 0 =
        -600000 / 3600001 ∧
      ((HIEncoder.normalize (fun x => x) (fun x => x) [FeatType.positive_real]
          ⟨[0], [1], 0⟩ [[some 4], [some 16]]).2.1.getD 0 []).getD 0 0 ≠
        (fun x => x) (relu 4 + 1 / 100000000) := by
  constructor <;>
    norm_num [HIEncoder.normalize, observed_mask, zeroFill, applyLogRow,
      bnStepTrain, bnUpdate, HIEncoder.batch_norm_reset_hook, bnOutputTrain,
      colMean, colVarBiased, getCol, vmean, vsum, relu, idxMap, idxMapFrom,
      zipWith3, FeatType.isLogTransformed, FeatType.isRecovered]

/-- C4 amended: in HIEncoder.normalize the batch-norm transform is retained
for the real AND positive_real columns (positive_real gets batch norm ON
TOP of its log transform), while count columns keep only the log transform
and categorical/ordinal columns are returned verbatim (zero-filled). -/
theorem c4_amended_normalize_columns (qlog qsqrt : ℚ → ℚ)
    (fts : List FeatType) (s : BNState) (X : OptMat) (i j : ℕ)
    (hrect : ∀ r ∈ X, r.length = fts.length) (hi : i < X.length)
    (hj : j < fts.length) :
    (fts.getD j .real = .count →
      ((HIEncoder.normalize qlog qsqrt fts s X).2.1.getD i []).getD j 0 =
        qlog (relu (((zeroFill X).getD i []).getD j 0) + 1 / 100000000)) ∧
    (((∃ cmax, fts.getD j .real = .categorical cmax) ∨
        ∃ omin omax, fts.getD j .real = .ordinal omin omax) →
      ((HIEncoder.normalize qlog qsqrt fts s X).2.1.getD i []).getD j 0 =
        ((zeroFill X).getD i []).getD j 0) ∧
    ((fts.getD j .real = .real ∨ fts.getD j .real = .positive_real) →
      ((HIEncoder.normalize qlog qsqrt fts s X).2.1.getD i []).getD j 0 =
        (((normalizeInPlace qlog fts X).getD i []).getD j 0 -
            colMean (normalizeInPlace qlog fts X) j) /
          qsqrt (colVarBiased (normalizeInPlace qlog fts X) j + 1 / 100000)) := by
  have hrow : (X.getD i []).length = fts.length := hrect _ (getD_mem hi)
  have hzlen : ((zeroFill X).getD i []).length = fts.length := by
    rw [zeroFill_getD_row hi, List.length_map]
    exact hrow
  have hcell :=
    normalize_ret_getD qlog qsqrt fts s hrect hi hj
  have hinplace :
      ((normalizeInPlace qlog fts X).getD i []).getD j 0 =
        (if (fts.getD j .real).isLogTransformed then
          qlog (relu (((zeroFill X).getD i []).getD j 0) + 1 / 100000000)
        else ((zeroFill X).getD i []).getD j 0) := by
    rw [normalizeInPlace_getD_row qlog fts hi]
    exact applyLogRow_getD qlog fts _ hj (by omega)
  refine ⟨?_, ?_, ?_⟩
  · intro hc
    rw [hcell, hc]
    simp only [FeatType.isRecovered, if_pos]
    rw [show (normalizeInPlace qlog fts X).getD i [] =
        applyLogRow qlog fts ((zeroFill X).getD i []) from
      normalizeInPlace_getD_row qlog fts hi]
    rw [applyLogRow_getD qlog fts _ hj (by omega), hc]
    simp [FeatType.isLogTransformed]
  · intro hc
    have hrec : (fts.getD j .real).isRecovered = true := by
      rcases hc with ⟨c, h⟩ | ⟨a, b, h⟩ <;> rw [h] <;> rfl
    have hnolog : (fts.getD j .real).isLogTransformed = false := by
      rcases hc with ⟨c, h⟩ | ⟨a, b, h⟩ <;> rw [h] <;> rfl
    rw [hcell, if_pos hrec, hinplace, hnolog]
    simp
  · intro hc
    have hrec : (fts.getD j .real).isRecovered = false := by
      rcases hc with h | h <;> rw [h] <;> rfl
    rw [hcell, hrec]
    simp only [Bool.false_eq_true, if_false]
    exact bnOutputTrain_getD qsqrt
      (by rw [length_normalizeInPlace]; exact hi)
      (by rw [normalizeInPlace_row_length qlog fts hi hrow]; exact hj)

/-- C10: the hard mixture one-hot is built by F.one_hot WITHOUT num_classes,
so its width is (largest argmax index in the batch) + 1.  Whenever no
sample's argmax selects the last mixture component, the one-hot is narrower
than n_mix_components, the concatenation h = [hidden, one_hot] is narrower
than the mean/var heads' in_features, and HIEncoder.forward (and hence
HIVAEModule.forward) raises a shape error even on well-formed input. -/
theorem c10_onehot_width_mismatch (qexp qlog qsqrt : ℚ → ℚ)
    (E : HIEncoder) (lastHidden latent_dim : ℕ)
    (hwf : HIEncoderWF E lastHidden latent_dim) (s : BNState)
    (g : ℕ → ℕ → ℚ) (X : OptMat) (dists : Mat)
    (hd : HIEncoder.encDists qexp qlog qsqrt E s g X = .ok dists)
    (hne : dists ≠ [])
    (hlast : ∀ row ∈ dists, argmaxIdx row ≠ E.n_mix_components - 1) :
    (∃ e, (E.forward qexp qlog qsqrt s g X).2 = .error e) ∧
      ∀ (M : HIVAEModule) (logSqrt2pi : ℚ) (eps : ℕ → ℕ → ℚ) (w : ℚ),
        M.encoder = E →
          ∃ e,
            (M.forward qexp qlog qsqrt logSqrt2pi s g eps X w).2.2 =
              .error e := by
  unfold HIEncoder.encDists at hd
  cases hXe : HIEncoder.categorical_encode E.feat_types
      (HIEncoder.normalize qlog qsqrt E.feat_types s X).2.1 with
  | error e => rw [hXe] at hd; cases hd
  | ok Xe =>
  rw [hXe] at hd
  dsimp only at hd
  cases hpi : listMapE E.mixture_model.apply Xe with
  | error e =>
    rw [hpi] at hd
    dsimp only at hd
    cases hd
  | ok pi =>
  rw [hpi] at hd
  dsimp only at hd
  simp only [Except.ok.injEq] at hd
  subst hd
  have hpiLen : ∀ row ∈ pi, row.length = E.n_mix_components := by
    intro row hrow
    obtain ⟨a, _, hap⟩ := listMapE_ok_mem hpi row hrow
    rw [Linear.apply_ok_length hwf.mix_wf hap, hwf.mix_out]
  have hdLen : ∀ row ∈ gumbelSoftmax qexp g pi,
      row.length = E.n_mix_components := by
    intro row hrow
    obtain ⟨i, prow, hp, rfl⟩ := mem_idxMap hrow
    rw [length_softmaxRow, length_idxMap]
    exact hpiLen prow hp
  obtain ⟨drow, hdrow⟩ := List.exists_mem_of_ne_nil _ hne
  have hKpos : 0 < E.n_mix_components := by
    rcases Nat.eq_zero_or_pos E.n_mix_components with hK0 | h
    · exfalso
      have h1 : drow = [] :=
        List.length_eq_zero.mp (by rw [hdLen drow hdrow, hK0])
      have h2 := hlast drow hdrow
      rw [h1, hK0] at h2
      exact h2 rfl
    · exact h
  have hlt : argmaxIdx drow < E.n_mix_components := by
    rw [← hdLen drow hdrow]
    exact argmaxIdx_lt_length
      (List.length_pos.mp (by rw [hdLen drow hdrow]; omega))
  have hK2 : 2 ≤ E.n_mix_components := by
    have := hlast drow hdrow
    omega
  have hidxle : ∀ idx ∈ (gumbelSoftmax qexp g pi).map argmaxIdx,
      idx ≤ E.n_mix_components - 2 := by
    intro idx hidx
    obtain ⟨row, hrow, rfl⟩ := List.mem_map.mp hidx
    have h1 : argmaxIdx row < E.n_mix_components := by
      rw [← hdLen row hrow]
      exact argmaxIdx_lt_length
        (List.length_pos.mp (by rw [hdLen row hrow]; omega))
    have h2 := hlast row hrow
    omega
  have hXeLen : ∀ a ∈ Xe, a.length = sumWidths E.feat_types := by
    intro a ha
    obtain ⟨b, _, hab⟩ := listMapE_ok_forall hpi a ha
    rw [Linear.apply_ok_inlen hab, hwf.mix_in]
  obtain ⟨h0, hh0⟩ :=
    listMapE_ok_of_forall
      (fun a ha => ((applyChain_ok hwf.hid (hXeLen a ha)).imp
        fun y hy => hy.1 : ∃ y, applyChain E.hidden a = .ok y))
  have hh0Len : ∀ y ∈ h0, y.length = lastHidden := by
    intro y hy
    obtain ⟨a, ha, hay⟩ := listMapE_ok_mem hh0 y hy
    obtain ⟨z, hz, hzlen⟩ := applyChain_ok hwf.hid (hXeLen a ha)
    rw [hay] at hz
    cases hz
    exact hzlen
  have hpine : pi ≠ [] := by
    intro h
    rw [h] at hne
    exact hne rfl
  have hXene : Xe ≠ [] := by
    intro h
    have hlen := listMapE_ok_length hpi
    rw [h] at hlen
    simp only [List.length_nil] at hlen
    exact hpine (List.length_eq_zero.mp hlen)
  have hh0ne : h0 ≠ [] := by
    intro h
    have hlen := listMapE_ok_length hh0
    rw [h] at hlen
    simp only [List.length_nil] at hlen
    exact hXene (List.length_eq_zero.mp (hlen.symm))
  have hEncErr : (E.forward qexp qlog qsqrt s g X).2 =
      .error "RuntimeError: mat1 and mat2 shapes cannot be multiplied" := by
    simp only [HIEncoder.forward, hXe, hpi, hh0]
    cases h0 with
    | nil => exact absurd rfl hh0ne
    | cons y ys =>
      cases hic : (gumbelSoftmax qexp g pi).map argmaxIdx with
      | nil =>
        exfalso
        have : gumbelSoftmax qexp g pi = [] := List.map_eq_nil_iff.mp hic
        exact hne this
      | cons i0 is =>
        rw [hic] at hidxle
        have hfold : (i0 :: is).foldr Nat.max 0 + 1 < E.n_mix_components := by
          have := foldr_max_le hidxle
          omega
        have hhead : (y ++ (List.range ((i0 :: is).foldr Nat.max 0 + 1)).map
            (fun i => if i = i0 then (1 : ℚ) else 0)).length ≠ E.mean.inF := by
          rw [List.length_append, List.length_map, List.length_range,
            hwf.mean_in, hh0Len y (List.mem_cons_self y ys)]
          omega
        simp only [oneHotRows, List.map_cons, List.zipWith_cons_cons]
        rw [listMapE_error_head (Linear.apply_error_of_ne hhead)]
  refine ⟨⟨_, hEncErr⟩, ?_⟩
  intro M logSqrt2pi eps w hME
  subst hME
  refine ⟨"RuntimeError: mat1 and mat2 shapes cannot be multiplied", ?_⟩
  simp only [HIVAEModule.forward, hEncErr]

/-- Witness for C10: a two-component encoder on the one-sample batch [[1]]
whose gumbel-softmax puts the argmax on component 0 (not the last), so the
forward pass raises a shape error. -/
theorem c10_onehot_width_mismatch_witness :
    (HIEncoder.encDists (fun x => x + 2) (fun x => x) (fun x => x)
        ⟨[.real], 2, ⟨1, 2, [[0], [0]], [0, -1]⟩, [], ⟨3, 1, [[0, 0, 0]], [0]⟩,
          ⟨3, 1, [[0, 0, 0]], [0]⟩, ⟨2, 1, [[0, 0]], [0]⟩,
          ⟨2, 1, [[0, 0]], [0]⟩⟩
        ⟨[0], [1], 0⟩ (fun _ _ => 0) [[some 1]] = .ok [[2/3, 1/3]]) ∧
      ([[2/3, 1/3]] : Mat) ≠ [] ∧
      (∀ row ∈ ([[2/3, 1/3]] : Mat), argmaxIdx row ≠ 2 - 1) ∧
      ∃ e,
        (HIEncoder.forward (fun x => x + 2) (fun x => x) (fun x => x)
            ⟨[.real], 2, ⟨1, 2, [[0], [0]], [0, -1]⟩, [],
              ⟨3, 1, [[0, 0, 0]], [0]⟩, ⟨3, 1, [[0, 0, 0]], [0]⟩,
              ⟨2, 1, [[0, 0]], [0]⟩, ⟨2, 1, [[0, 0]], [0]⟩⟩
            ⟨[0], [1], 0⟩ (fun _ _ => 0) [[some 1]]).2 = .error e := by
  have hwf : HIEncoderWF
      ⟨[.real], 2, ⟨1, 2, [[0], [0]], [0, -1]⟩, [], ⟨3, 1, [[0, 0, 0]], [0]⟩,
        ⟨3, 1, [[0, 0, 0]], [0]⟩, ⟨2, 1, [[0, 0]], [0]⟩,
        ⟨2, 1, [[0, 0]], [0]⟩⟩ 1 1 :=
    ⟨⟨rfl, rfl⟩, rfl, rfl, rfl, ⟨rfl, rfl⟩, rfl, rfl, ⟨rfl, rfl⟩, rfl, rfl,
      rfl, rfl⟩
  have hd : HIEncoder.encDists (fun x => x + 2) (fun x => x) (fun x => x)
      ⟨[.real], 2, ⟨1, 2, [[0], [0]], [0, -1]⟩, [], ⟨3, 1, [[0, 0, 0]], [0]⟩,
        ⟨3, 1, [[0, 0, 0]], [0]⟩, ⟨2, 1, [[0, 0]], [0]⟩,
        ⟨2, 1, [[0, 0]], [0]⟩⟩
      ⟨[0], [1], 0⟩ (fun _ _ => 0) [[some 1]] = .ok [[2/3, 1/3]] := by
    norm_num [HIEncoder.encDists, HIEncoder.normalize, observed_mask,
      zeroFill, applyLogRow, bnOutputTrain, bnStepTrain, bnUpdate,
      HIEncoder.batch_norm_reset_hook, colMean, colVarBiased, colVarUnbiased,
      getCol, vmean, vsum, relu, idxMap, idxMapFrom, zipWith3,
      FeatType.isLogTransformed, FeatType.isRecovered,
      HIEncoder.categorical_encode, HIEncoder.categorical_encode_row,
      encodeCell, listMapE, Linear.apply, dot, gumbelSoftmax, softmaxRow,
      softplus]
  have hne : ([[2/3, 1/3]] : Mat) ≠ [] := by simp
  have hl : ∀ row ∈ ([[2/3, 1/3]] : Mat), argmaxIdx row ≠ 2 - 1 := by
    intro row hrow
    simp only [List.mem_singleton] at hrow
    subst hrow
    norm_num [argmaxIdx, argmaxAux]
  exact ⟨hd, hne, hl,
    (c10_onehot_width_mismatch (fun x => x + 2) (fun x => x) (fun x => x)
        ⟨[.real], 2, ⟨1, 2, [[0], [0]], [0, -1]⟩, [], ⟨3, 1, [[0, 0, 0]], [0]⟩,
          ⟨3, 1, [[0, 0, 0]], [0]⟩, ⟨2, 1, [[0, 0]], [0]⟩,
          ⟨2, 1, [[0, 0]], [0]⟩⟩
        1 1 hwf ⟨[0], [1], 0⟩ (fun _ _ => 0) [[some 1]] [[2/3, 1/3]] hd hne
        hl).1⟩

/-- C9: HIVAEModule.forward leaves the caller's tensor doubly transformed:
the encoder's normalize mutates the tensor in place (missing cells
zero-filled, positive_real/count columns replaced by log(relu(x)+1e-8)), and
forward then calls normalize a SECOND time on that already-transformed
tensor.  After a successful forward the caller's tensor equals
normalizeInPlace applied to the result of the first normalizeInPlace, and
the tensor handed to reconstruction_error carries the log transform twice
on every count column. -/
theorem c9_double_normalize (qexp qlog qsqrt : ℚ → ℚ) (logSqrt2pi : ℚ)
    (M : HIVAEModule) (s : BNState) (g eps : ℕ → ℕ → ℚ) (X : OptMat)
    (out : Mat × Mat × Mat × List (List Bool))
    (hE : (M.encoder.forward qexp qlog qsqrt s g X).2 = .ok out)
    (hrect : ∀ r ∈ X, r.length = M.encoder.feat_types.length) (w : ℚ) :
    (M.forward qexp qlog qsqrt logSqrt2pi s g eps X w).2.1 =
        normalizeInPlace qlog M.encoder.feat_types
          (toOptMat (normalizeInPlace qlog M.encoder.feat_types X)) ∧
      normalizeInPlace qlog M.encoder.feat_types
          (toOptMat (normalizeInPlace qlog M.encoder.feat_types X)) =
        (normalizeInPlace qlog M.encoder.feat_types X).map
          (applyLogRow qlog M.encoder.feat_types) ∧
      ∀ i j, i < X.length → j < M.encoder.feat_types.length →
        M.encoder.feat_types.getD j .real = .count →
        ((HIEncoder.normalize qlog qsqrt M.encoder.feat_types
              (M.encoder.forward qexp qlog qsqrt s g X).1
              (toOptMat (normalizeInPlace qlog M.encoder.feat_types X))).2.1.getD
            i []).getD j 0 =
          qlog (relu (qlog (relu (((zeroFill X).getD i []).getD j 0) +
            1 / 100000000)) + 1 / 100000000) := by
  refine ⟨?_, ?_, ?_⟩
  · simp only [HIVAEModule.forward, hE]
    rfl
  · rw [show normalizeInPlace qlog M.encoder.feat_types
        (toOptMat (normalizeInPlace qlog M.encoder.feat_types X)) =
        (zeroFill (toOptMat (normalizeInPlace qlog M.encoder.feat_types X))).map
          (applyLogRow qlog M.encoder.feat_types) from rfl]
    rw [zeroFill_toOptMat]
  · intro i j hi hj hcount
    have hrow : (X.getD i []).length = M.encoder.feat_types.length :=
      hrect _ (getD_mem hi)
    have hX1len :
        (normalizeInPlace qlog M.encoder.feat_types X).length = X.length :=
      length_normalizeInPlace qlog M.encoder.feat_types X
    have hX1row :
        ((normalizeInPlace qlog M.encoder.feat_types X).getD i []).length =
          M.encoder.feat_types.length :=
      normalizeInPlace_row_length qlog M.encoder.feat_types hi hrow
    have hrect1 : ∀ r ∈ toOptMat (normalizeInPlace qlog M.encoder.feat_types X),
        r.length = M.encoder.feat_types.length := by
      intro r hr
      obtain ⟨row, hrow1, rfl⟩ := List.mem_map.mp hr
      obtain ⟨zrow, hzrow, rfl⟩ := List.mem_map.mp hrow1
      obtain ⟨xrow, hxrow, rfl⟩ := List.mem_map.mp hzrow
      rw [List.length_map, length_applyLogRow, List.length_map,
        hrect xrow hxrow]
      exact Nat.min_self _
    have hi1 : i < (toOptMat (normalizeInPlace qlog M.encoder.feat_types X)).length := by
      rw [show (toOptMat (normalizeInPlace qlog M.encoder.feat_types X)).length =
          (normalizeInPlace qlog M.encoder.feat_types X).length from by
        simp [toOptMat], hX1len]
      exact hi
    rw [normalize_ret_getD qlog qsqrt M.encoder.feat_types _ hrect1 hi1 hj]
    rw [hcount]
    simp only [FeatType.isRecovered, if_pos]
    rw [normalizeInPlace_getD_row qlog M.encoder.feat_types hi1,
      zeroFill_toOptMat]
    rw [applyLogRow_getD qlog M.encoder.feat_types _ hj
      (by rw [hX1row]; exact hj)]
    rw [hcount]
    simp only [FeatType.isLogTransformed, if_pos]
    rw [normalizeInPlace_getD_row qlog M.encoder.feat_types hi]
    rw [applyLogRow_getD qlog M.encoder.feat_types _ hj
      (by rw [zeroFill_getD_row hi, List.length_map, hrow]; exact hj)]
    rw [hcount]
    rfl

/-- Witness for C9: a one-mixture-component module with a single count
feature on the batch [[4]].  The encoder forward succeeds, and the claim's
conclusions hold at this instance. -/
theorem c9_double_normalize_witness :
    ((HIEncoder.forward (fun x => x + 2) (fun x => x) (fun x => x)
          ⟨[.count], 1, ⟨1, 1, [[0]], [0]⟩, [], ⟨2, 1, [[0, 0]], [0]⟩,
            ⟨2, 1, [[0, 0]], [0]⟩, ⟨1, 1, [[0]], [0]⟩, ⟨1, 1, [[0]], [0]⟩⟩
          ⟨[0], [1], 0⟩ (fun _ _ => 0) [[some 4]]).2 =
        .ok ([[0]], [[3]], [[1]], [[true]])) ∧
      (∀ r ∈ ([[some (4 : ℚ)]] : OptMat), r.length = [FeatType.count].length) ∧
      ((HIVAEModule.forward (fun x => x + 2) (fun x => x) (fun x => x) 0
            ⟨1, 1,
              ⟨[.count], 1, ⟨1, 1, [[0]], [0]⟩, [], ⟨2, 1, [[0, 0]], [0]⟩,
                ⟨2, 1, [[0, 0]], [0]⟩, ⟨1, 1, [[0]], [0]⟩, ⟨1, 1, [[0]], [0]⟩⟩,
              ⟨[.count], 1, [], [.poisson ⟨⟨2, 1, [[0, 0]], [0]⟩⟩]⟩⟩
            ⟨[0], [1], 0⟩ (fun _ _ => 0) (fun _ _ => 0) [[some 4]] 1).2.1 =
          normalizeInPlace (fun x => x) [FeatType.count]
            (toOptMat (normalizeInPlace (fun x => x) [FeatType.count]
              [[some 4]])) ∧
        normalizeInPlace (fun x => x) [FeatType.count]
            (toOptMat (normalizeInPlace (fun x => x) [FeatType.count]
              [[some 4]])) =
          (normalizeInPlace (fun x => x) [FeatType.count] [[some 4]]).map
            (applyLogRow (fun x => x) [FeatType.count]) ∧
        ∀ i j, i < ([[some (4 : ℚ)]] : OptMat).length →
          j < [FeatType.count].length →
          [FeatType.count].getD j .real = .count →
          ((HIEncoder.normalize (fun x => x) (fun x => x) [FeatType.count]
                (HIEncoder.forward (fun x => x + 2) (fun x => x) (fun x => x)
                  ⟨[.count], 1, ⟨1, 1, [[0]], [0]⟩, [], ⟨2, 1, [[0, 0]], [0]⟩,
                    ⟨2, 1, [[0, 0]], [0]⟩, ⟨1, 1, [[0]], [0]⟩,
                    ⟨1, 1, [[0]], [0]⟩⟩
                  ⟨[0], [1], 0⟩ (fun _ _ => 0) [[some 4]]).1
                (toOptMat (normalizeInPlace (fun x => x) [FeatType.count]
                  [[some 4]]))).2.1.getD i []).getD j 0 =
            (fun x => x) (relu ((fun x => x)
              (relu (((zeroFill [[some 4]]).getD i []).getD j 0) +
                1 / 100000000)) + 1 / 100000000)) := by
  have hE : (HIEncoder.forward (fun x => x + 2) (fun x => x) (fun x => x)
      ⟨[.count], 1, ⟨1, 1, [[0]], [0]⟩, [], ⟨2, 1, [[0, 0]], [0]⟩,
        ⟨2, 1, [[0, 0]], [0]⟩, ⟨1, 1, [[0]], [0]⟩, ⟨1, 1, [[0]], [0]⟩⟩
      ⟨[0], [1], 0⟩ (fun _ _ => 0) [[some 4]]).2 =
      .ok ([[0]], [[3]], [[1]], [[true]]) := by
    norm_num [HIEncoder.forward, HIEncoder.normalize, observed_mask, zeroFill,
      applyLogRow, bnStepTrain, bnUpdate, HIEncoder.batch_norm_reset_hook,
      bnOutputTrain, colMean, colVarBiased, colVarUnbiased, getCol, vmean,
      vsum, relu, idxMap, idxMapFrom, zipWith3, FeatType.isLogTransformed,
      FeatType.isRecovered, HIEncoder.categorical_encode,
      HIEncoder.categorical_encode_row, encodeCell, listMapE, Linear.apply,
      dot, gumbelSoftmax, softmaxRow, softplus, argmaxIdx, argmaxAux,
      oneHotRows, applyChain, applyLinLeaky, leakyRelu, List.range_succ]
  have hrect : ∀ r ∈ ([[some (4 : ℚ)]] : OptMat),
      r.length = [FeatType.count].length := by
    intro r hr
    simp only [List.mem_singleton] at hr
    simp [hr]
  exact ⟨hE, hrect,
    c9_double_normalize (fun x => x + 2) (fun x => x) (fun x => x) 0
      ⟨1, 1,
        ⟨[.count], 1, ⟨1, 1, [[0]], [0]⟩, [], ⟨2, 1, [[0, 0]], [0]⟩,
          ⟨2, 1, [[0, 0]], [0]⟩, ⟨1, 1, [[0]], [0]⟩, ⟨1, 1, [[0]], [0]⟩⟩,
        ⟨[.count], 1, [], [.poisson ⟨⟨2, 1, [[0, 0]], [0]⟩⟩]⟩⟩
      ⟨[0], [1], 0⟩ (fun _ _ => 0) (fun _ _ => 0) [[some 4]]
      ([[0]], [[3]], [[1]], [[true]]) hE hrect 1⟩

/-- Witness for C4's amended claim: features
[positive_real, count, categorical 1], one row [[4, 2, 1]], at the count
column j = 1 the returned value is exactly the log transform of the
zero-filled cell. -/
theorem c4_amended_witness :
    ((∀ r ∈ [[some (4 : ℚ), some 2, some 1]],
        r.length = [FeatType.positive_real, .count, .categorical 1].length) ∧
      0 < ([[some (4 : ℚ), some 2, some 1]] : OptMat).length ∧
      1 < [FeatType.positive_real, .count, .categorical 1].length) ∧
    (([FeatType.positive_real, .count, .categorical 1].getD 1 .real = .count →
      ((HIEncoder.normalize (fun x => x - 1) (fun x => x)
            [FeatType.positive_real, .count, .categorical 1] ⟨[0, 0, 0], [1, 1, 1], 0⟩
            [[some 4, some 2, some 1]]).2.1.getD 0 []).getD 1 0 =
        (fun x => x - 1)
          (relu (((zeroFill [[some 4, some 2, some 1]]).getD 0 []).getD 1 0) +
            1 / 100000000))) := by
  have h1 : ∀ r ∈ [[some (4 : ℚ), some 2, some 1]],
      r.length = [FeatType.positive_real, .count, .categorical 1].length := by
    intro r hr
    simp only [List.mem_singleton] at hr
    simp [hr]
  exact ⟨⟨h1, by norm_num, by norm_num⟩,
    (c4_amended_normalize_columns (fun x => x - 1) (fun x => x)
        [FeatType.positive_real, .count, .categorical 1] ⟨[0, 0, 0], [1, 1, 1], 0⟩
        [[some 4, some 2, some 1]] 0 1 h1 (by norm_num) (by norm_num)).1⟩

end HiVae
